import Mathlib

/-!
# Verification of `CSPScheduler.py`

A shallow embedding of the scheduling engine in `src/CSPScheduler.py`.

* Python `dict` objects (the schedule, the teacher map, the per-teacher
  `occupied_slots` map, the conflict report) are modelled by `CSP.Dict`,
  an insertion-ordered association list with Python `dict` update
  semantics: writing to an existing key updates it in place, writing to
  a fresh key appends it, and iteration (`.items()`, `.values()`)
  follows the entry order.
* Python lists are Lean lists; `list.remove(x)` is `List.erase`
  (first occurrence) guarded by membership, since Python raises
  `ValueError` when `x` is absent — fallible code therefore lives in
  `Except String`.
* The one Python `set` in the program (`available_slots` in
  `finalize_schedule`) has unspecified iteration order; it is modelled
  as the duplicate-free list of `time_slots` in first-occurrence order,
  filtered to the unoccupied ones.  Every property proved about
  `finalize_schedule` below is insensitive to that order choice.
-/

set_option autoImplicit false

namespace CSP

abbrev Subject := String
abbrev Teacher := String
abbrev Slot := String × String

/-- Insertion-ordered dictionary modelling a Python `dict`. -/
structure Dict (α β : Type) where
  entries : List (α × β)
deriving DecidableEq

namespace Dict

variable {α β : Type} [DecidableEq α]

def empty : Dict α β := ⟨[]⟩

/-- `d[k]` lookup / `d.get(k)`: the value at the first entry whose key is `k`. -/
def get? (d : Dict α β) (k : α) : Option β :=
  (d.entries.find? (fun p => decide (p.1 = k))).map Prod.snd

/-- `d[k] = v` on the entry list: replace the value at the first entry whose
key is `k` (a Python dict has at most one), append a fresh entry otherwise. -/
def setKey (k : α) (v : β) : List (α × β) → List (α × β)
  | [] => [(k, v)]
  | p :: ps => if p.1 = k then (k, v) :: ps else p :: setKey k v ps

/-- `d[k] = v`: update in place when the key exists, append otherwise. -/
def set (d : Dict α β) (k : α) (v : β) : Dict α β :=
  ⟨setKey k v d.entries⟩

def keys (d : Dict α β) : List α := d.entries.map Prod.fst

/-- A real Python `dict` never has two entries with the same key. -/
@[reducible] def WF (d : Dict α β) : Prop := d.keys.Nodup

/-- `d.setdefault(k, []).append`⋯: append `vs` to the list stored at `k`,
starting from `[]` when `k` is absent. -/
def appendAt (d : Dict α (List β)) (k : α) (vs : List β) : Dict α (List β) :=
  match d.get? k with
  | some l => d.set k (l ++ vs)
  | none => d.set k vs

end Dict

/-- The slots of `time_slots` in first-occurrence order with duplicates
dropped: the canonical enumeration of the Python set `set(time_slots)`. -/
def dedupFirst {α : Type} [DecidableEq α] : List α → List α
  | [] => []
  | x :: xs => x :: (dedupFirst xs).filter (fun y => decide (y ≠ x))

/-- The `Scheduler` object: the three construction inputs plus the mutable
`self.schedule` dict. -/
structure Scheduler where
  subjects : List Subject
  teachers : Dict Teacher (List Subject)
  time_slots : List Slot
  schedule : Dict Subject (List Slot)
deriving DecidableEq

/-- `Scheduler.__init__`: stores the instance data and starts with an empty
schedule. -/
def mkScheduler (subjects : List Subject) (teachers : Dict Teacher (List Subject))
    (time_slots : List Slot) : Scheduler :=
  ⟨subjects, teachers, time_slots, Dict.empty⟩

/-- The loop of `initialize_schedule`: walk the subjects, popping the next
slot from the front of `available_slots` while any remain, assigning `[]`
once they run out. -/
def initFold : List Subject → List Slot → Dict Subject (List Slot) → Dict Subject (List Slot)
  | [], _, sch => sch
  | sub :: subs, [], sch => initFold subs [] (sch.set sub [])
  | sub :: subs, slot :: rest, sch => initFold subs rest (sch.set sub [slot])

def Scheduler.initialize_schedule (s : Scheduler) : Scheduler :=
  { s with schedule := initFold s.subjects s.time_slots s.schedule }

/-- The nested iteration `for subject in subjects: for time_slot in
self.schedule.get(subject, [])`, flattened into one stream of
`(subject, time_slot)` pairs. -/
def pairStream (sch : Dict Subject (List Slot)) (subs : List Subject) : List (Subject × Slot) :=
  subs.flatMap (fun sub => ((sch.get? sub).getD []).map (fun ts => (sub, ts)))

/-- One step of the `find_teacher_conflicts` scan for teacher `t`: the state
is the global `teacher_conflicts` dict together with this teacher's
`occupied_slots` dict. -/
def conflictStep (t : Teacher)
    (st : Dict Teacher (List (Subject × Slot)) × Dict Slot Subject)
    (p : Subject × Slot) :
    Dict Teacher (List (Subject × Slot)) × Dict Slot Subject :=
  match st.2.get? p.2 with
  | some first => (st.1.appendAt t [(p.1, p.2), (first, p.2)], st.2)
  | none => (st.1, st.2.set p.2 p.1)

/-- `find_teacher_conflicts`: for each teacher in turn, scan their subjects'
assigned slots with a fresh `occupied_slots` dict, recording both members of
each collision in the shared `teacher_conflicts` dict. -/
def Scheduler.find_teacher_conflicts (s : Scheduler) : Dict Teacher (List (Subject × Slot)) :=
  s.teachers.entries.foldl
    (fun conf tp => ((pairStream s.schedule tp.2).foldl (conflictStep tp.1) (conf, Dict.empty)).1)
    Dict.empty

/-- Is `slot` in the set `{slot for slots in self.schedule.values() for slot in slots}`? -/
def occupiedBy (sch : Dict Subject (List Slot)) (slot : Slot) : Bool :=
  sch.entries.any (fun p => decide (slot ∈ p.2))

/-- The search loop of `find_alternative_slot`, a function of the schedule
and the slot list only. -/
def findAlternative (sch : Dict Subject (List Slot)) (time_slots : List Slot) : Option Slot :=
  time_slots.find? (fun slot => ! occupiedBy sch slot)

/-- `find_alternative_slot`: the body never reads `conflicting_slot`; it
returns the first `time_slots` entry occupied by no subject, else `None`. -/
def Scheduler.find_alternative_slot (s : Scheduler) (conflicting_slot : Slot) : Option Slot :=
  findAlternative s.schedule s.time_slots

/-- One iteration of the `resolve_teacher_conflicts` body on conflict record
`p = (subject, time_slot)`.  `self.schedule[subject]` raises `KeyError` on a
missing key and `list.remove` raises `ValueError` on a missing element, so
the step lives in `Except`.  In the swap branch the appended value
`self.find_alternative_slot(time_slot) or time_slot` is computed *after*
`swap_slots.remove(time_slot)` has mutated the schedule. -/
def resolveStep (time_slots : List Slot) (sch : Dict Subject (List Slot))
    (p : Subject × Slot) : Except String (Dict Subject (List Slot)) :=
  match findAlternative sch time_slots with
  | some alt =>
    match sch.get? p.1 with
    | none => Except.error "KeyError"
    | some l =>
      if p.2 ∈ l then Except.ok (sch.set p.1 ((l.erase p.2) ++ [alt]))
      else Except.error "ValueError: list.remove(x): x not in list"
  | none =>
    match sch.entries.find? (fun q => decide (q.1 ≠ p.1) && decide (p.2 ∈ q.2)) with
    | none => Except.ok sch
    | some q =>
      let erased := q.2.erase p.2
      let sch1 := sch.set q.1 erased
      let alt2 := (findAlternative sch1 time_slots).getD p.2
      Except.ok (sch1.set q.1 (erased ++ [alt2]))

/-- The double loop over `conflicts.items()` flattened to one record list. -/
def resolveFold (time_slots : List Slot) :
    List (Subject × Slot) → Dict Subject (List Slot) → Except String (Dict Subject (List Slot))
  | [], sch => Except.ok sch
  | p :: ps, sch =>
    match resolveStep time_slots sch p with
    | Except.error e => Except.error e
    | Except.ok sch2 => resolveFold time_slots ps sch2

/-- `resolve_teacher_conflicts`: detect conflicts once, then process every
recorded `(subject, time_slot)` pair in report order. -/
def Scheduler.resolve_teacher_conflicts (s : Scheduler) : Except String Scheduler :=
  match resolveFold s.time_slots (s.find_teacher_conflicts.entries.flatMap Prod.snd) s.schedule with
  | Except.error e => Except.error e
  | Except.ok sch => Except.ok { s with schedule := sch }

/-- The loop of `finalize_schedule`: give each unassigned subject the next
free slot, stopping silently when the free pool empties. -/
def finFold : List Subject → List Slot → Dict Subject (List Slot) → Dict Subject (List Slot)
  | [], _, sch => sch
  | _ :: subs, [], sch => finFold subs [] sch
  | sub :: subs, slot :: rest, sch => finFold subs rest (sch.set sub [slot])

/-- `finalize_schedule`: `unassigned` keeps subjects whose `schedule.get` is
falsy (missing key or empty list); `available` is `set(self.time_slots)`
minus the occupied slots. -/
def Scheduler.finalize_schedule (s : Scheduler) : Scheduler :=
  let unassigned := s.subjects.filter (fun sub => ((s.schedule.get? sub).getD []).isEmpty)
  let available := (dedupFirst s.time_slots).filter (fun slot => ! occupiedBy s.schedule slot)
  { s with schedule := finFold unassigned available s.schedule }

/-- The three-phase pipeline run by the driver:
`initialize_schedule(); resolve_teacher_conflicts(); finalize_schedule()`. -/
def pipeline (subjects : List Subject) (teachers : Dict Teacher (List Subject))
    (time_slots : List Slot) : Except String Scheduler :=
  match (mkScheduler subjects teachers time_slots).initialize_schedule.resolve_teacher_conflicts with
  | Except.error e => Except.error e
  | Except.ok s2 => Except.ok s2.finalize_schedule

/-- The `occupied_slots` dict of one teacher's scan after a list of pairs. -/
def scanOcc : List (Subject × Slot) → Dict Slot Subject → Dict Slot Subject
  | [], occ => occ
  | p :: ps, occ =>
    match occ.get? p.2 with
    | some _ => scanOcc ps occ
    | none => scanOcc ps (occ.set p.2 p.1)

/-- The conflict records one teacher's scan emits from a list of pairs,
starting from the occupancy dict `occ`. -/
def scanConf : List (Subject × Slot) → Dict Slot Subject → List (Subject × Slot)
  | [], _ => []
  | p :: ps, occ =>
    match occ.get? p.2 with
    | some first => (p.1, p.2) :: (first, p.2) :: scanConf ps occ
    | none => scanConf ps (occ.set p.2 p.1)

/-- The full conflict record list of one teacher. -/
def conflictList (sch : Dict Subject (List Slot)) (subs : List Subject) :
    List (Subject × Slot) :=
  scanConf (pairStream sch subs) Dict.empty

/-- Merging one teacher's conflict records into the global report. -/
def mergeConf (conf : Dict Teacher (List (Subject × Slot))) (t : Teacher)
    (cl : List (Subject × Slot)) : Dict Teacher (List (Subject × Slot)) :=
  if cl.isEmpty then conf else conf.appendAt t cl

/-- Per-teacher restatement of the conflict report: each teacher of the
instance contributes their conflict record list when it is non-empty.
Proved equal to `find_teacher_conflicts` for well-formed teacher dicts. -/
def conflictsSpec (s : Scheduler) : Dict Teacher (List (Subject × Slot)) :=
  ⟨s.teachers.entries.filterMap (fun tp =>
    let cl := conflictList s.schedule tp.2
    if cl.isEmpty then none else some (tp.1, cl))⟩

/-- `find_teacher_conflicts` viewed as a state transformer: the method body
assigns only to the locals `teacher_conflicts` and `occupied_slots`, never
to `self`, so the post-state is the pre-state. -/
def Scheduler.find_teacher_conflicts_run (s : Scheduler) :
    Dict Teacher (List (Subject × Slot)) × Scheduler :=
  (s.find_teacher_conflicts, s)

/-- Occurrence count of `x` in a list, used to reason about slot
multiplicities across a teacher's subject stream. -/
def cnt {α : Type} [DecidableEq α] (x : α) : List α → Nat
  | [] => 0
  | y :: l => cnt x l + (if y = x then 1 else 0)

/-- Entries of a healthy schedule dict: pairwise distinct keys and pairwise
disjoint slot lists. -/
def SchedulePairwise (l : List (Subject × List Slot)) : Prop :=
  List.Pairwise (fun p q => p.1 ≠ q.1 ∧ ∀ x ∈ p.2, x ∉ q.2) l

/-- Invariant of the `initialize_schedule` loop: the schedule built so far
has disjoint singleton-or-empty assignments avoiding the remaining
duplicate-free slot pool. -/
def InitInv (sch : Dict Subject (List Slot)) (avail : List Slot) : Prop :=
  SchedulePairwise sch.entries ∧
  (∀ p ∈ sch.entries, p.2.length ≤ 1) ∧
  (∀ p ∈ sch.entries, ∀ x ∈ p.2, x ∉ avail) ∧
  avail.Nodup

/-! ## Dictionary lemmas -/

namespace Dict

variable {α β : Type} [DecidableEq α]

theorem get?_empty (k : α) : (empty : Dict α β).get? k = none := rfl

theorem get?_set (d : Dict α β) (k k' : α) (v : β) :
    (d.set k v).get? k' = if k' = k then some v else d.get? k' := by
  rcases d with ⟨l⟩
  induction l with
  | nil =>
    by_cases h : k' = k
    · subst h
      simp [set, setKey, get?, List.find?]
    · simp [set, setKey, get?, List.find?, h, decide_eq_false (fun hh : k = k' => h hh.symm)]
  | cons p ps ih =>
    by_cases hp : p.1 = k
    · by_cases h : k' = k <;>
        simp_all [set, setKey, get?, List.find?, Eq.comm]
    · by_cases h : k' = k <;> by_cases hq : p.1 = k' <;>
        simp_all [set, setKey, get?, List.find?, Eq.comm]

theorem get?_set_self (d : Dict α β) (k : α) (v : β) : (d.set k v).get? k = some v := by
  simp [get?_set]

theorem get?_set_ne {d : Dict α β} {k k' : α} {v : β} (h : k' ≠ k) :
    (d.set k v).get? k' = d.get? k' := by
  simp [get?_set, h]

theorem keys_set (d : Dict α β) (k : α) (v : β) :
    (d.set k v).keys = if k ∈ d.keys then d.keys else d.keys ++ [k] := by
  rcases d with ⟨l⟩
  induction l with
  | nil => simp [set, setKey, keys]
  | cons p ps ih =>
    by_cases hp : p.1 = k
    · simp [set, setKey, keys, hp]
    · have := ih
      by_cases hm : k ∈ ps.map Prod.fst <;>
        simp_all [set, setKey, keys, hp, Ne.symm hp]

theorem WF.set {d : Dict α β} (h : d.WF) (k : α) (v : β) : (d.set k v).WF := by
  unfold WF at h ⊢
  rw [keys_set]
  split
  · exact h
  · rename_i hk
    rw [← List.concat_eq_append]
    exact List.Nodup.concat hk h

theorem mem_of_get?_eq_some {d : Dict α β} {k : α} {v : β} (h : d.get? k = some v) :
    (k, v) ∈ d.entries := by
  unfold get? at h
  rcases Option.map_eq_some'.mp h with ⟨p, hp, hv⟩
  have hk0 := List.find?_some hp
  have hk : p.1 = k := by simpa using hk0
  have hm := List.mem_of_find?_eq_some hp
  have : p = (k, v) := by
    cases p
    simp_all
  rwa [this] at hm

theorem get?_eq_some_of_mem {d : Dict α β} (hwf : d.WF) {k : α} {v : β}
    (h : (k, v) ∈ d.entries) : d.get? k = some v := by
  rcases d with ⟨l⟩
  induction l with
  | nil => cases h
  | cons p ps ih =>
    rcases List.mem_cons.mp h with h1 | h1
    · subst h1
      simp [get?, List.find?]
    · have hk : p.1 ≠ k := by
        intro hpk
        have : k ∈ ps.map Prod.fst := by
          exact List.mem_map.mpr ⟨(k, v), h1, rfl⟩
        unfold WF keys at hwf
        rw [List.map_cons, List.nodup_cons, hpk] at hwf
        exact hwf.1 this
      have hwf' : (Dict.mk ps : Dict α β).WF := by
        unfold WF keys at hwf ⊢
        rw [List.map_cons, List.nodup_cons] at hwf
        exact hwf.2
      have := ih hwf' h1
      simp only [get?, List.find?] at this ⊢
      rw [decide_eq_false hk]
      exact this

theorem get?_eq_none_iff {d : Dict α β} {k : α} :
    d.get? k = none ↔ ∀ p ∈ d.entries, p.1 ≠ k := by
  unfold get?
  rw [Option.map_eq_none', List.find?_eq_none]
  constructor
  · intro h p hp
    exact of_decide_eq_false (Bool.eq_false_iff.mpr (h p hp))
  · intro h p hp
    simp [h p hp]

theorem get?_isSome_iff {d : Dict α β} {k : α} :
    (d.get? k).isSome = true ↔ ∃ p ∈ d.entries, p.1 = k := by
  rcases h : d.get? k with _ | v
  · rw [get?_eq_none_iff] at h
    simp only [Option.isSome_none, Bool.false_eq_true, false_iff]
    push_neg
    exact h
  · simp only [Option.isSome_some, true_iff]
    exact ⟨(k, v), mem_of_get?_eq_some h, rfl⟩

theorem setKey_setKey (k : α) (v v' : β) (l : List (α × β)) :
    setKey k v' (setKey k v l) = setKey k v' l := by
  induction l with
  | nil => simp [setKey]
  | cons p ps ih =>
    by_cases hp : p.1 = k <;> simp [setKey, hp, ih]

theorem set_set (d : Dict α β) (k : α) (v v' : β) :
    (d.set k v).set k v' = d.set k v' := by
  rcases d with ⟨l⟩
  simp [set, setKey_setKey]

theorem appendAt_get? {γ : Type} (d : Dict α (List γ)) (k k' : α) (vs : List γ) :
    (d.appendAt k vs).get? k' =
      if k' = k then some (((d.get? k).getD []) ++ vs) else d.get? k' := by
  unfold appendAt
  rcases h : d.get? k with _ | l <;> simp [get?_set, h]

theorem appendAt_appendAt {γ : Type} (d : Dict α (List γ)) (k : α) (a b : List γ) :
    (d.appendAt k a).appendAt k b = d.appendAt k (a ++ b) := by
  unfold appendAt
  rcases h : d.get? k with _ | l <;>
    simp [h, get?_set_self, set_set, List.append_assoc]

end Dict

/-! ## Occupancy, alternative-slot search, `dedupFirst` -/

theorem find?_split {α : Type} {p : α → Bool} {l : List α} {a : α} (h : l.find? p = some a) :
    ∃ l1 l2, l = l1 ++ a :: l2 ∧ ∀ u ∈ l1, p u = false := by
  induction l with
  | nil => cases h
  | cons x xs ih =>
    by_cases hx : p x
    · rw [List.find?_cons_of_pos _ hx] at h
      obtain rfl : x = a := by injection h
      exact ⟨[], xs, rfl, by simp⟩
    · rw [List.find?_cons_of_neg _ (by simpa using hx)] at h
      obtain ⟨l1, l2, rfl, hu⟩ := ih h
      refine ⟨x :: l1, l2, rfl, ?_⟩
      intro u hu'
      rcases List.mem_cons.mp hu' with rfl | hmem
      · simpa using hx
      · exact hu u hmem

theorem occupiedBy_eq_true_iff {sch : Dict Subject (List Slot)} {slot : Slot} :
    occupiedBy sch slot = true ↔ ∃ p ∈ sch.entries, slot ∈ p.2 := by
  unfold occupiedBy
  rw [List.any_eq_true]
  simp

theorem occupiedBy_eq_false_iff {sch : Dict Subject (List Slot)} {slot : Slot} :
    occupiedBy sch slot = false ↔ ∀ p ∈ sch.entries, slot ∉ p.2 := by
  rw [← Bool.not_eq_true, occupiedBy_eq_true_iff]
  push_neg
  rfl

theorem occupiedBy_of_get? {sch : Dict Subject (List Slot)} {sub : Subject}
    {l : List Slot} {slot : Slot} (hg : sch.get? sub = some l) (hs : slot ∈ l) :
    occupiedBy sch slot = true :=
  occupiedBy_eq_true_iff.mpr ⟨(sub, l), Dict.mem_of_get?_eq_some hg, hs⟩

theorem not_mem_getD_of_not_occupied {sch : Dict Subject (List Slot)} {slot : Slot}
    (h : occupiedBy sch slot = false) (sub : Subject) :
    slot ∉ (sch.get? sub).getD [] := by
  rcases hg : sch.get? sub with _ | l
  · simp
  · simpa using occupiedBy_eq_false_iff.mp h (sub, l) (Dict.mem_of_get?_eq_some hg)

theorem occupiedBy_wf_iff {sch : Dict Subject (List Slot)} (hwf : sch.WF) {slot : Slot} :
    occupiedBy sch slot = true ↔ ∃ sub l, sch.get? sub = some l ∧ slot ∈ l := by
  rw [occupiedBy_eq_true_iff]
  constructor
  · rintro ⟨⟨sub, l⟩, hp, hs⟩
    exact ⟨sub, l, Dict.get?_eq_some_of_mem hwf hp, hs⟩
  · rintro ⟨sub, l, hg, hs⟩
    exact ⟨(sub, l), Dict.mem_of_get?_eq_some hg, hs⟩

theorem findAlternative_eq_none_iff {sch : Dict Subject (List Slot)} {ts : List Slot} :
    findAlternative sch ts = none ↔ ∀ slot ∈ ts, occupiedBy sch slot = true := by
  unfold findAlternative
  rw [List.find?_eq_none]
  constructor
  · intro h slot hs
    have := h slot hs
    simpa using this
  · intro h slot hs
    simp [h slot hs]

theorem findAlternative_mem_and_free {sch : Dict Subject (List Slot)} {ts : List Slot}
    {t : Slot} (h : findAlternative sch ts = some t) :
    t ∈ ts ∧ occupiedBy sch t = false := by
  unfold findAlternative at h
  refine ⟨List.mem_of_find?_eq_some h, ?_⟩
  have := List.find?_some h
  simpa using this

theorem findAlternative_split {sch : Dict Subject (List Slot)} {ts : List Slot}
    {t : Slot} (h : findAlternative sch ts = some t) :
    ∃ l1 l2, ts = l1 ++ t :: l2 ∧ occupiedBy sch t = false ∧
      ∀ u ∈ l1, occupiedBy sch u = true := by
  obtain ⟨l1, l2, rfl, hu⟩ := find?_split h
  refine ⟨l1, l2, rfl, (findAlternative_mem_and_free h).2, ?_⟩
  intro u hmem
  have := hu u hmem
  simpa using this

theorem mem_dedupFirst {α : Type} [DecidableEq α] {l : List α} {x : α} :
    x ∈ dedupFirst l ↔ x ∈ l := by
  induction l with
  | nil => simp [dedupFirst]
  | cons a as ih =>
    by_cases hx : x = a
    · simp [dedupFirst, hx]
    · simp [dedupFirst, hx, List.mem_filter, ih]

theorem nodup_dedupFirst {α : Type} [DecidableEq α] (l : List α) : (dedupFirst l).Nodup := by
  induction l with
  | nil => simp [dedupFirst]
  | cons a as ih =>
    rw [dedupFirst, List.nodup_cons]
    constructor
    · intro hmem
      have := (List.mem_filter.mp hmem).2
      simp at this
    · exact ih.filter _

/-! ## Pair stream lemmas -/

theorem pairStream_map_snd (sch : Dict Subject (List Slot)) (subs : List Subject) :
    (pairStream sch subs).map Prod.snd = subs.flatMap (fun sub => (sch.get? sub).getD []) := by
  unfold pairStream
  rw [List.map_flatMap]
  congr 1
  funext sub
  rw [List.map_map]
  simp

theorem mem_pairStream {sch : Dict Subject (List Slot)} {subs : List Subject}
    {sub : Subject} {ts : Slot} :
    (sub, ts) ∈ pairStream sch subs ↔ sub ∈ subs ∧ ts ∈ (sch.get? sub).getD [] := by
  unfold pairStream
  simp only [List.mem_flatMap, List.mem_map]
  constructor
  · rintro ⟨a, ha, ts', hts, heq⟩
    obtain ⟨rfl, rfl⟩ : a = sub ∧ ts' = ts := by
      have h1 := congrArg Prod.fst heq
      have h2 := congrArg Prod.snd heq
      exact ⟨h1, h2⟩
    exact ⟨ha, hts⟩
  · rintro ⟨ha, hts⟩
    exact ⟨sub, ha, ts, hts, rfl⟩

theorem pairStream_append (sch : Dict Subject (List Slot)) (s1 s2 : List Subject) :
    pairStream sch (s1 ++ s2) = pairStream sch s1 ++ pairStream sch s2 := by
  unfold pairStream
  rw [List.flatMap_append]

/-! ## Claim C7: `find_alternative_slot` returns the first globally free slot -/

/-- C7: for every schedule state, `find_alternative_slot` returns the first
time slot in the construction-time ordering of `time_slots` that is not
contained in any subject's slot list, and returns `None` exactly when every
slot of `time_slots` is occupied by some subject. -/
theorem C7_find_alternative_slot_first_free (s : Scheduler) (c : Slot) :
    (∀ t, s.find_alternative_slot c = some t →
      (∀ p ∈ s.schedule.entries, t ∉ p.2) ∧
      ∃ l1 l2, s.time_slots = l1 ++ t :: l2 ∧
        ∀ u ∈ l1, ∃ p ∈ s.schedule.entries, u ∈ p.2) ∧
    (s.find_alternative_slot c = none ↔
      ∀ t ∈ s.time_slots, ∃ p ∈ s.schedule.entries, t ∈ p.2) := by
  constructor
  · intro t h
    obtain ⟨l1, l2, hts, hfree, hocc⟩ := findAlternative_split h
    refine ⟨occupiedBy_eq_false_iff.mp hfree, l1, l2, hts, ?_⟩
    intro u hu
    exact occupiedBy_eq_true_iff.mp (hocc u hu)
  · rw [show s.find_alternative_slot c = findAlternative s.schedule s.time_slots from rfl,
      findAlternative_eq_none_iff]
    constructor
    · intro h t ht
      exact occupiedBy_eq_true_iff.mp (h t ht)
    · intro h t ht
      exact occupiedBy_eq_true_iff.mpr (h t ht)

/-- C7 witness: on the demo-sized instance with every slot taken, the search
reports `none`; with a free slot present it returns the first free one. -/
theorem C7_find_alternative_slot_first_free_witness :
    (Scheduler.find_alternative_slot
        ⟨["A"], ⟨[]⟩, [("Mon", "9AM")], ⟨[("A", [("Mon", "9AM")])]⟩⟩ ("Mon", "9AM") = none) ∧
    ∀ t ∈ [("Mon", "9AM")], ∃ p ∈ [(("A" : Subject), [(("Mon", "9AM") : Slot)])], t ∈ p.2 :=
  ⟨(C7_find_alternative_slot_first_free
      ⟨["A"], ⟨[]⟩, [("Mon", "9AM")], ⟨[("A", [("Mon", "9AM")])]⟩⟩ ("Mon", "9AM")).2.mpr
      (by decide),
    by decide⟩

/-! ## Claim C8: the `conflicting_slot` argument is ignored -/

/-- C8: for every schedule state and any two values of the conflicting-slot
argument, `find_alternative_slot` returns the same result — the argument has
no influence on the output. -/
theorem C8_find_alternative_slot_ignores_argument (s : Scheduler) (a b : Slot) :
    s.find_alternative_slot a = s.find_alternative_slot b := rfl

/-! ## Claim C10: `find_teacher_conflicts` is a pure observer -/

/-- C10: `find_teacher_conflicts` leaves the whole scheduler state (schedule,
subjects, teachers, time slots) unchanged, and repeating it any number of
times keeps returning the same report. -/
theorem C10_find_teacher_conflicts_pure (s : Scheduler) (n : Nat) :
    s.find_teacher_conflicts_run.2 = s ∧
    (fun st => st.find_teacher_conflicts_run.2)^[n] s = s ∧
    ((fun st => st.find_teacher_conflicts_run.2)^[n] s).find_teacher_conflicts_run.1
      = s.find_teacher_conflicts_run.1 := by
  refine ⟨rfl, Function.iterate_fixed rfl n, ?_⟩
  rw [Function.iterate_fixed rfl n]

/-! ## Claim C3: `initialize_schedule` -/

theorem initFold_get?_of_not_mem {subs : List Subject} {sub : Subject} (h : sub ∉ subs)
    (slots : List Slot) (sch : Dict Subject (List Slot)) :
    (initFold subs slots sch).get? sub = sch.get? sub := by
  induction subs generalizing slots sch with
  | nil => rfl
  | cons a as ih =>
    have hne : sub ≠ a := fun hh => h (hh ▸ List.mem_cons_self a as)
    have hnm : sub ∉ as := fun hm => h (List.mem_cons_of_mem a hm)
    cases slots with
    | nil =>
      rw [initFold, ih hnm, Dict.get?_set_ne hne]
    | cons slot rest =>
      rw [initFold, ih hnm, Dict.get?_set_ne hne]

theorem initFold_get?_nodup {subs : List Subject} (hnd : subs.Nodup) (slots : List Slot)
    (sch : Dict Subject (List Slot)) (i : Nat) (hi : i < subs.length) :
    (initFold subs slots sch).get? (subs.get ⟨i, hi⟩) =
      some (if h : i < slots.length then [slots.get ⟨i, h⟩] else []) := by
  induction subs generalizing slots sch i with
  | nil => cases hi
  | cons a as ih =>
    rw [List.nodup_cons] at hnd
    cases i with
    | zero =>
      cases slots with
      | nil =>
        rw [initFold, List.get, initFold_get?_of_not_mem hnd.1, Dict.get?_set_self]
        simp
      | cons slot rest =>
        rw [initFold, List.get, initFold_get?_of_not_mem hnd.1, Dict.get?_set_self]
        simp
    | succ j =>
      have hj : j < as.length := Nat.lt_of_succ_lt_succ hi
      cases slots with
      | nil =>
        rw [initFold, List.get, ih hnd.2 [] _ j hj]
        simp
      | cons slot rest =>
        rw [initFold, List.get, ih hnd.2 rest _ j hj]
        by_cases h : j < rest.length
        · rw [dif_pos h,
            dif_pos (show j + 1 < (slot :: rest).length from Nat.succ_lt_succ h)]
          rfl
        · rw [dif_neg h,
            dif_neg (show ¬ j + 1 < (slot :: rest).length from
              fun hh => h (Nat.lt_of_succ_lt_succ hh))]

theorem filter_length_setKey_le {k : Subject} {v : List Slot} (l : List (Subject × List Slot))
    (p : Subject × List Slot → Bool) :
    ((Dict.setKey k v l).filter p).length ≤
      (l.filter p).length + (if p (k, v) then 1 else 0) := by
  induction l with
  | nil =>
    by_cases hp : p (k, v) <;> simp [Dict.setKey, List.filter, hp]
  | cons q qs ih =>
    by_cases hq : q.1 = k
    · rw [Dict.setKey, if_pos hq]
      by_cases hp : p (k, v) <;> by_cases hpq : p q <;>
        simp [List.filter, hp, hpq] <;> omega
    · rw [Dict.setKey, if_neg hq]
      by_cases hpq : p q <;> simp [List.filter, hpq] <;> omega

theorem initFold_filter_le (subs : List Subject) (slots : List Slot)
    (sch : Dict Subject (List Slot)) :
    ((initFold subs slots sch).entries.filter (fun p => decide (p.2 ≠ []))).length ≤
      (sch.entries.filter (fun p => decide (p.2 ≠ []))).length + slots.length := by
  induction subs generalizing slots sch with
  | nil => simp [initFold]
  | cons a as ih =>
    cases slots with
    | nil =>
      rw [initFold]
      refine le_trans (ih [] _) ?_
      have := filter_length_setKey_le (k := a) (v := []) sch.entries
        (fun p => decide (p.2 ≠ []))
      simpa [Dict.set] using this
    | cons slot rest =>
      rw [initFold]
      refine le_trans (ih rest _) ?_
      have := filter_length_setKey_le (k := a) (v := [slot]) sch.entries
        (fun p => decide (p.2 ≠ []))
      have hd : (decide (([slot] : List Slot) ≠ [])) = true := decide_eq_true (by simp)
      simp only [Dict.set, hd, if_pos] at this
      simp only [Dict.set, List.length_cons]
      omega

/-- C3 counterexample: with the degenerate subjects list `["A", "A"]` and two
time slots, the subject at index 0 does not end up with the slot at index 0
(the dict entry is overwritten by the duplicate and holds slot 1), refuting
the per-index claim for arbitrary subjects lists. -/
theorem C3_counterexample_duplicate_subjects :
    (["A", "A"] : List Subject).get ⟨0, by decide⟩ = "A" ∧
    (0 : Nat) < ([("M", "9"), ("M", "10")] : List Slot).length ∧
    ((mkScheduler ["A", "A"] ⟨[]⟩ [("M", "9"), ("M", "10")]).initialize_schedule).schedule.get? "A"
        = some [("M", "10")] ∧
    ((mkScheduler ["A", "A"] ⟨[]⟩ [("M", "9"), ("M", "10")]).initialize_schedule).schedule.get? "A"
        ≠ some [("M", "9")] := by
  refine ⟨rfl, by decide, ?_, ?_⟩ <;> decide

/-- C3 (amended: the subjects list has no duplicate names): after
`initialize_schedule` on a fresh scheduler, the `i`-th subject holds exactly
the singleton of the `i`-th time slot when `i < len(time_slots)` and the
empty list otherwise; moreover at most `len(time_slots)` subjects carry a
non-empty assignment. -/
theorem C3_initialize_schedule_characterization (subjects : List Subject)
    (teachers : Dict Teacher (List Subject)) (time_slots : List Slot)
    (hnd : subjects.Nodup) :
    (∀ i (hi : i < subjects.length),
      ((mkScheduler subjects teachers time_slots).initialize_schedule).schedule.get?
          (subjects.get ⟨i, hi⟩) =
        some (if h : i < time_slots.length then [time_slots.get ⟨i, h⟩] else [])) ∧
    (((mkScheduler subjects teachers time_slots).initialize_schedule).schedule.entries.filter
        (fun p => decide (p.2 ≠ []))).length ≤ time_slots.length := by
  constructor
  · intro i hi
    exact initFold_get?_nodup hnd time_slots _ i hi
  · have := initFold_filter_le subjects time_slots Dict.empty
    simpa [mkScheduler, Dict.empty, Scheduler.initialize_schedule] using this

/-- C3 witness: on the demo instance (4 distinct subjects, 3 slots) the
third subject gets slot 3 and the fourth gets the empty list. -/
theorem C3_initialize_schedule_characterization_witness :
    ((mkScheduler ["Math", "Physics", "Chemistry", "Biology"]
        ⟨[("Alice", ["Math", "Physics"]), ("Bob", ["Chemistry"]), ("Charlie", ["Biology"])]⟩
        [("Monday", "9AM"), ("Monday", "10AM"), ("Monday", "11AM")]).initialize_schedule).schedule.get?
      "Biology" = some [] := by
  have h := (C3_initialize_schedule_characterization
      ["Math", "Physics", "Chemistry", "Biology"]
      ⟨[("Alice", ["Math", "Physics"]), ("Bob", ["Chemistry"]), ("Charlie", ["Biology"])]⟩
      [("Monday", "9AM"), ("Monday", "10AM"), ("Monday", "11AM")] (by decide)).1 3 (by decide)
  simpa using h

/-! ## Claim C2: `finalize_schedule` frame conditions -/

theorem finFold_get?_of_not_mem {subs : List Subject} {sub : Subject} (h : sub ∉ subs)
    (slots : List Slot) (sch : Dict Subject (List Slot)) :
    (finFold subs slots sch).get? sub = sch.get? sub := by
  induction subs generalizing slots sch with
  | nil => rfl
  | cons a as ih =>
    have hne : sub ≠ a := fun hh => h (hh ▸ List.mem_cons_self a as)
    have hnm : sub ∉ as := fun hm => h (List.mem_cons_of_mem a hm)
    cases slots with
    | nil => rw [finFold, ih hnm]
    | cons slot rest => rw [finFold, ih hnm, Dict.get?_set_ne hne]

theorem finFold_eq_foldl_zip (subs : List Subject) (slots : List Slot)
    (sch : Dict Subject (List Slot)) :
    finFold subs slots sch =
      (subs.zip slots).foldl (fun d p => d.set p.1 [p.2]) sch := by
  induction subs generalizing slots sch with
  | nil => rfl
  | cons a as ih =>
    cases slots with
    | nil => rw [finFold, ih, List.zip_nil_right, List.zip_nil_right]
    | cons slot rest => rw [finFold, ih, List.zip_cons_cons, List.foldl_cons]

theorem map_snd_zip_sublist {α β : Type} (l1 : List α) (l2 : List β) :
    ((l1.zip l2).map Prod.snd).Sublist l2 := by
  induction l1 generalizing l2 with
  | nil => simp
  | cons a as ih =>
    cases l2 with
    | nil => simp
    | cons b bs =>
      rw [List.zip_cons_cons, List.map_cons]
      exact List.Sublist.cons₂ b (ih bs)

/-- C2: `finalize_schedule` leaves every subject with a non-empty slot list
untouched, changes only subjects whose entry is empty or absent, and the
slots it hands out form a duplicate-free selection from the time slots that
no subject occupied when finalization started. -/
theorem C2_finalize_schedule_frame (s : Scheduler) :
    (∀ sub l, s.schedule.get? sub = some l → l ≠ [] →
      (s.finalize_schedule).schedule.get? sub = some l) ∧
    (∀ sub, (s.finalize_schedule).schedule.get? sub ≠ s.schedule.get? sub →
      s.schedule.get? sub = none ∨ s.schedule.get? sub = some []) ∧
    (∃ pairs : List (Subject × Slot),
      (∀ p ∈ pairs, p.1 ∈ s.subjects ∧ ((s.schedule.get? p.1).getD []).isEmpty) ∧
      (pairs.map Prod.snd).Nodup ∧
      (∀ p ∈ pairs, p.2 ∈ s.time_slots ∧ occupiedBy s.schedule p.2 = false) ∧
      (s.finalize_schedule).schedule =
        pairs.foldl (fun d p => d.set p.1 [p.2]) s.schedule) := by
  have havail_nodup : ((dedupFirst s.time_slots).filter
      (fun slot => ! occupiedBy s.schedule slot)).Nodup :=
    (nodup_dedupFirst s.time_slots).filter _
  refine ⟨?_, ?_, ?_⟩
  · intro sub l hg hne
    have hmem : sub ∉ s.subjects.filter
        (fun sub => ((s.schedule.get? sub).getD []).isEmpty) := by
      intro hmem
      have := (List.mem_filter.mp hmem).2
      rw [hg] at this
      simp at this
      exact hne this
    rw [Scheduler.finalize_schedule]
    exact (finFold_get?_of_not_mem hmem _ _).trans hg
  · intro sub hchanged
    rcases hg : s.schedule.get? sub with _ | l
    · exact Or.inl rfl
    · rcases eq_or_ne l [] with rfl | hne
      · exact Or.inr rfl
      · exfalso
        apply hchanged
        have hmem : sub ∉ s.subjects.filter
            (fun sub => ((s.schedule.get? sub).getD []).isEmpty) := by
          intro hmem
          have := (List.mem_filter.mp hmem).2
          rw [hg] at this
          simp at this
          exact hne this
        rw [Scheduler.finalize_schedule]
        exact finFold_get?_of_not_mem hmem _ _
  · refine ⟨(s.subjects.filter (fun sub => ((s.schedule.get? sub).getD []).isEmpty)).zip
      ((dedupFirst s.time_slots).filter (fun slot => ! occupiedBy s.schedule slot)),
      ?_, ?_, ?_, ?_⟩
    · rintro ⟨sub, slot⟩ hp
      have hm := (List.of_mem_zip hp).1
      exact ⟨(List.mem_filter.mp hm).1, (List.mem_filter.mp hm).2⟩
    · exact (map_snd_zip_sublist _ _).nodup havail_nodup
    · rintro ⟨sub, slot⟩ hp
      have hm := (List.of_mem_zip hp).2
      have h1 := (List.mem_filter.mp hm).1
      have h2 := (List.mem_filter.mp hm).2
      refine ⟨mem_dedupFirst.mp h1, ?_⟩
      simpa using h2
    · rw [Scheduler.finalize_schedule]
      exact finFold_eq_foldl_zip _ _ _

/-- C2 witness: with subject `A` already holding a slot and `B` unscheduled,
finalization keeps `A`'s entry intact. -/
theorem C2_finalize_schedule_frame_witness :
    (Scheduler.finalize_schedule
        ⟨["A", "B"], ⟨[]⟩, [("M", "9"), ("M", "10")],
          ⟨[("A", [("M", "9")])]⟩⟩).schedule.get? "A" = some [("M", "9")] :=
  (C2_finalize_schedule_frame
      ⟨["A", "B"], ⟨[]⟩, [("M", "9"), ("M", "10")], ⟨[("A", [("M", "9")])]⟩⟩).1
    "A" [("M", "9")] (by decide) (by decide)

/-! ## The conflict scan: relating `find_teacher_conflicts` to `scanConf` -/

theorem mergeConf_nil (conf : Dict Teacher (List (Subject × Slot))) (t : Teacher) :
    mergeConf conf t [] = conf := rfl

theorem mergeConf_ne_nil (conf : Dict Teacher (List (Subject × Slot))) (t : Teacher)
    {cl : List (Subject × Slot)} (h : cl ≠ []) : mergeConf conf t cl = conf.appendAt t cl := by
  rw [mergeConf, if_neg (by simpa using h)]

theorem foldl_conflictStep (t : Teacher) (pairs : List (Subject × Slot))
    (conf : Dict Teacher (List (Subject × Slot))) (occ : Dict Slot Subject) :
    pairs.foldl (conflictStep t) (conf, occ) =
      (mergeConf conf t (scanConf pairs occ), scanOcc pairs occ) := by
  induction pairs generalizing conf occ with
  | nil => rfl
  | cons p ps ih =>
    rw [List.foldl_cons]
    rcases h : occ.get? p.2 with _ | first
    · rw [show conflictStep t (conf, occ) p = (conf, occ.set p.2 p.1) by
        rw [conflictStep, h], ih, scanConf, scanOcc, h]
    · rw [show conflictStep t (conf, occ) p =
          (conf.appendAt t [(p.1, p.2), (first, p.2)], occ) by rw [conflictStep, h],
        ih, scanConf, scanOcc, h]
      rcases heq : scanConf ps occ with _ | ⟨r, rs⟩
      · rw [mergeConf_nil, mergeConf_ne_nil _ _ (by simp)]
      · rw [mergeConf_ne_nil _ _ (by simp), mergeConf_ne_nil _ _ (by simp),
          Dict.appendAt_appendAt]
        rfl

theorem find_teacher_conflicts_eq (s : Scheduler) :
    s.find_teacher_conflicts =
      s.teachers.entries.foldl
        (fun conf tp => mergeConf conf tp.1 (conflictList s.schedule tp.2)) Dict.empty := by
  unfold Scheduler.find_teacher_conflicts
  congr 1
  funext conf tp
  rw [foldl_conflictStep]
  rfl

theorem setKey_of_forall_ne {α β : Type} [DecidableEq α] {k : α} {v : β}
    {l : List (α × β)} (h : ∀ p ∈ l, p.1 ≠ k) :
    Dict.setKey k v l = l ++ [(k, v)] := by
  induction l with
  | nil => rfl
  | cons p ps ih =>
    rw [Dict.setKey, if_neg (h p (List.mem_cons_self p ps)), List.cons_append,
      ih (fun q hq => h q (List.mem_cons_of_mem p hq))]

theorem entries_set_of_get?_eq_none {α β : Type} [DecidableEq α] {d : Dict α β} {k : α}
    (h : d.get? k = none) (v : β) :
    (d.set k v).entries = d.entries ++ [(k, v)] :=
  setKey_of_forall_ne (Dict.get?_eq_none_iff.mp h)

theorem get?_mk_append_right {α β : Type} [DecidableEq α] {l1 l2 : List (α × β)} {k : α}
    (h : ∀ p ∈ l1, p.1 ≠ k) :
    (Dict.mk (l1 ++ l2) : Dict α β).get? k = (Dict.mk l2 : Dict α β).get? k := by
  induction l1 with
  | nil => rfl
  | cons p ps ih =>
    rw [List.cons_append]
    show ((Dict.mk (p :: (ps ++ l2)) : Dict α β)).get? k = _
    rw [Dict.get?, List.find?_cons_of_neg _
      (by simpa using h p (List.mem_cons_self p ps))]
    exact ih (fun q hq => h q (List.mem_cons_of_mem p hq))

theorem conflicts_foldl_char (sch : Dict Subject (List Slot))
    (ts : List (Teacher × List Subject)) (acc : Dict Teacher (List (Subject × Slot)))
    (hnd : (ts.map Prod.fst).Nodup)
    (hdisj : ∀ t ∈ ts.map Prod.fst, acc.get? t = none) :
    ts.foldl (fun conf tp => mergeConf conf tp.1 (conflictList sch tp.2)) acc =
      ⟨acc.entries ++ ts.filterMap (fun tp =>
        if (conflictList sch tp.2).isEmpty then none
        else some (tp.1, conflictList sch tp.2))⟩ := by
  induction ts generalizing acc with
  | nil => simp
  | cons tp rest ih =>
    rw [List.map_cons, List.nodup_cons] at hnd
    rw [List.foldl_cons, List.filterMap_cons]
    rcases heq : conflictList sch tp.2 with _ | ⟨r, rs⟩
    · rw [show mergeConf acc tp.1 [] = acc from rfl]
      rw [ih acc hnd.2 (fun t ht => hdisj t (List.mem_cons_of_mem _ ht))]
      simp
    · have hacc : acc.get? tp.1 = none := hdisj tp.1 (List.mem_cons_self _ _)
      have hmerge : mergeConf acc tp.1 (r :: rs) = acc.set tp.1 (r :: rs) := by
        rw [mergeConf_ne_nil _ _ (by simp)]
        unfold Dict.appendAt
        rw [hacc]
      rw [hmerge]
      have hset : (acc.set tp.1 (r :: rs)).entries = acc.entries ++ [(tp.1, r :: rs)] :=
        entries_set_of_get?_eq_none hacc _
      have hdisj' : ∀ t ∈ rest.map Prod.fst,
          (acc.set tp.1 (r :: rs)).get? t = none := by
        intro t ht
        have hne : t ≠ tp.1 := fun hh => hnd.1 (hh ▸ ht)
        rw [Dict.get?_set_ne hne]
        exact hdisj t (List.mem_cons_of_mem _ ht)
      rw [ih _ hnd.2 hdisj', hset]
      simp [List.append_assoc]

theorem find_teacher_conflicts_char {s : Scheduler} (hwf : s.teachers.WF) :
    s.find_teacher_conflicts = conflictsSpec s := by
  rw [find_teacher_conflicts_eq,
    conflicts_foldl_char s.schedule s.teachers.entries Dict.empty hwf
      (fun t _ => rfl)]
  rfl

theorem get?_conflicts_filterMap_none (sch : Dict Subject (List Slot))
    (ts : List (Teacher × List Subject)) {T : Teacher} (h : T ∉ ts.map Prod.fst) :
    (Dict.mk (ts.filterMap (fun tp =>
        if (conflictList sch tp.2).isEmpty then none
        else some (tp.1, conflictList sch tp.2))) :
      Dict Teacher (List (Subject × Slot))).get? T = none := by
  induction ts with
  | nil => rfl
  | cons tp rest ih =>
    have hne : tp.1 ≠ T := fun hh => h (hh ▸ List.mem_cons_self _ _)
    have hnm : T ∉ rest.map Prod.fst := fun hm => h (List.mem_cons_of_mem _ hm)
    rw [List.filterMap_cons]
    rcases heq : conflictList sch tp.2 with _ | ⟨r, rs⟩
    · simpa [heq] using ih hnm
    · rw [if_neg (by simp)]
      show ((Dict.mk ((tp.1, _) :: _) : Dict Teacher (List (Subject × Slot)))).get? T = none
      rw [Dict.get?, List.find?_cons_of_neg _ (by simpa using hne)]
      exact ih hnm

theorem conflictsSpec_get? {s : Scheduler} (hwf : s.teachers.WF) {T : Teacher}
    {L : List Subject} (hmem : (T, L) ∈ s.teachers.entries) :
    (conflictsSpec s).get? T =
      if (conflictList s.schedule L).isEmpty then none
      else some (conflictList s.schedule L) := by
  unfold conflictsSpec
  unfold Dict.WF Dict.keys at hwf
  revert hwf hmem
  generalize s.teachers.entries = ts
  intro hwf hmem
  induction ts with
  | nil => cases hmem
  | cons tp rest ih =>
    rw [List.map_cons, List.nodup_cons] at hwf
    rcases List.mem_cons.mp hmem with heq | hm
    · obtain rfl : tp = (T, L) := heq.symm
      rw [List.filterMap_cons]
      by_cases hcl : (conflictList s.schedule L).isEmpty = true
      · rw [if_pos hcl]
        have h0 := get?_conflicts_filterMap_none s.schedule rest (T := T) hwf.1
        simpa [hcl] using h0
      · rw [if_neg hcl]
        simp only [hcl, Bool.false_eq_true, if_false]
        simp [Dict.get?, List.find?]
    · have hTmem : T ∈ rest.map Prod.fst := List.mem_map.mpr ⟨(T, L), hm, rfl⟩
      have hne : tp.1 ≠ T := fun hh => hwf.1 (hh ▸ hTmem)
      rw [List.filterMap_cons]
      by_cases hcl : (conflictList s.schedule tp.2).isEmpty = true
      · rw [show (if (conflictList s.schedule tp.2).isEmpty = true then none
            else some (tp.1, conflictList s.schedule tp.2)) = none from by simp [hcl]]
        exact ih hwf.2 hm
      · rw [show (if (conflictList s.schedule tp.2).isEmpty = true then none
            else some (tp.1, conflictList s.schedule tp.2)) =
            some (tp.1, conflictList s.schedule tp.2) from by simp [hcl]]
        show ((Dict.mk ((tp.1, _) :: _) : Dict Teacher (List (Subject × Slot)))).get? T = _
        rw [Dict.get?, List.find?_cons_of_neg _ (by simpa using hne)]
        exact ih hwf.2 hm

/-! ## Scan-state lemmas -/

theorem scanOcc_append (as bs : List (Subject × Slot)) (occ : Dict Slot Subject) :
    scanOcc (as ++ bs) occ = scanOcc bs (scanOcc as occ) := by
  induction as generalizing occ with
  | nil => rfl
  | cons p ps ih =>
    rcases h : occ.get? p.2 with _ | c <;>
      simp [List.cons_append, scanOcc, h, ih]

theorem scanConf_append (as bs : List (Subject × Slot)) (occ : Dict Slot Subject) :
    scanConf (as ++ bs) occ = scanConf as occ ++ scanConf bs (scanOcc as occ) := by
  induction as generalizing occ with
  | nil => rfl
  | cons p ps ih =>
    rcases h : occ.get? p.2 with _ | c <;>
      simp [List.cons_append, scanConf, scanOcc, h, ih]

theorem scanOcc_get?_of_some {pairs : List (Subject × Slot)} {occ : Dict Slot Subject}
    {x : Slot} {c : Subject} (h : occ.get? x = some c) :
    (scanOcc pairs occ).get? x = some c := by
  induction pairs generalizing occ with
  | nil => exact h
  | cons p ps ih =>
    rw [scanOcc]
    rcases hp : occ.get? p.2 with _ | c'
    · have hne : x ≠ p.2 := fun hh => by rw [hh, hp] at h; cases h
      exact ih (by rw [Dict.get?_set_ne hne]; exact h)
    · exact ih h

theorem scanOcc_get?_of_not_mem {pairs : List (Subject × Slot)} {occ : Dict Slot Subject}
    {x : Slot} (h : x ∉ pairs.map Prod.snd) :
    (scanOcc pairs occ).get? x = occ.get? x := by
  induction pairs generalizing occ with
  | nil => rfl
  | cons p ps ih =>
    have hne : x ≠ p.2 := fun hh => h (hh ▸ List.mem_map.mpr ⟨p, List.mem_cons_self p ps, rfl⟩)
    have hnm : x ∉ ps.map Prod.snd := fun hm => h (by
      rw [List.map_cons]
      exact List.mem_cons_of_mem _ hm)
    rw [scanOcc]
    rcases hp : occ.get? p.2 with _ | c'
    · rw [ih hnm, Dict.get?_set_ne hne]
    · exact ih hnm

theorem scanConf_eq_nil {pairs : List (Subject × Slot)} {occ : Dict Slot Subject}
    (h1 : (pairs.map Prod.snd).Nodup) (h2 : ∀ p ∈ pairs, occ.get? p.2 = none) :
    scanConf pairs occ = [] := by
  induction pairs generalizing occ with
  | nil => rfl
  | cons p ps ih =>
    rw [List.map_cons, List.nodup_cons] at h1
    rw [scanConf, h2 p (List.mem_cons_self p ps)]
    refine ih h1.2 ?_
    intro q hq
    have hne : q.2 ≠ p.2 := fun hh =>
      h1.1 (hh ▸ List.mem_map.mpr ⟨q, hq, rfl⟩)
    rw [Dict.get?_set_ne hne]
    exact h2 q (List.mem_cons_of_mem p hq)

theorem scanConf_ne_nil_of_isSome {pairs : List (Subject × Slot)} {occ : Dict Slot Subject}
    {q : Subject × Slot} (hq : q ∈ pairs) (h : (occ.get? q.2).isSome) :
    scanConf pairs occ ≠ [] := by
  induction pairs generalizing occ with
  | nil => cases hq
  | cons p ps ih =>
    rw [scanConf]
    rcases hp : occ.get? p.2 with _ | c
    · rcases List.mem_cons.mp hq with rfl | hm
      · rw [hp] at h
        cases h
      · refine ih hm ?_
        rw [Dict.get?_set]
        split
        · simp
        · exact h
    · simp

theorem nodup_of_scanConf_eq_nil {pairs : List (Subject × Slot)} {occ : Dict Slot Subject}
    (h : scanConf pairs occ = []) : (pairs.map Prod.snd).Nodup := by
  induction pairs generalizing occ with
  | nil => simp
  | cons p ps ih =>
    rw [scanConf] at h
    rcases hp : occ.get? p.2 with _ | c
    · rw [hp] at h
      rw [List.map_cons, List.nodup_cons]
      refine ⟨?_, ih h⟩
      intro hmem
      obtain ⟨q, hq, hq2⟩ := List.mem_map.mp hmem
      refine scanConf_ne_nil_of_isSome hq ?_ h
      rw [hq2, Dict.get?_set_self]
      rfl
    · rw [hp] at h
      cases h

theorem conflictList_eq_nil_iff (sch : Dict Subject (List Slot)) (subs : List Subject) :
    conflictList sch subs = [] ↔ ((pairStream sch subs).map Prod.snd).Nodup := by
  constructor
  · exact nodup_of_scanConf_eq_nil
  · intro h
    exact scanConf_eq_nil h (fun p _ => rfl)

/-! ## Claim C4: shape of the conflict report -/

/-- C4 counterexample: teacher `T` teaches `C`, `A`, `B` (in that order), all
three assigned the single slot `("M", "9")`.  `A` comes before `B` in `T`'s
list and both hold the shared slot, yet the conflict entry for `T` is
`[(A,S), (C,S), (B,S), (C,S)]` — the collision is recorded against the
original claimant `C`, so `(B, S)` is never followed by `(A, S)`. -/
theorem C4_counterexample_third_claimant :
    (["C", "A", "B"] : List Subject).get ⟨1, by decide⟩ = "A" ∧
    (["C", "A", "B"] : List Subject).get ⟨2, by decide⟩ = "B" ∧
    (Dict.get? ⟨[("C", [(("M", "9") : Slot)]), ("A", [("M", "9")]), ("B", [("M", "9")])]⟩
      "A" = some [("M", "9")]) ∧
    (Dict.get? ⟨[("C", [(("M", "9") : Slot)]), ("A", [("M", "9")]), ("B", [("M", "9")])]⟩
      "B" = some [("M", "9")]) ∧
    ((Scheduler.find_teacher_conflicts
        ⟨["C", "A", "B"], ⟨[("T", ["C", "A", "B"])]⟩, [("M", "9")],
          ⟨[("C", [("M", "9")]), ("A", [("M", "9")]), ("B", [("M", "9")])]⟩⟩).get? "T"
      = some [("A", ("M", "9")), ("C", ("M", "9")), ("B", ("M", "9")), ("C", ("M", "9"))]) ∧
    ¬ ([(("B" : Subject), (("M", "9") : Slot)), ("A", ("M", "9"))].Sublist
        (((Scheduler.find_teacher_conflicts
          ⟨["C", "A", "B"], ⟨[("T", ["C", "A", "B"])]⟩, [("M", "9")],
            ⟨[("C", [("M", "9")]), ("A", [("M", "9")]), ("B", [("M", "9")])]⟩⟩).get? "T").getD [])) := by
  refine ⟨rfl, rfl, by decide, by decide, by decide, by decide⟩

/-- C4 (amended: `A` must be the slot's original claimant): if the pair
stream of teacher `T` holds `(A, S)` with no earlier occurrence of `S`, and
later `(B, S)`, then `T`'s conflict entry contains `(B, S)` immediately
followed by `(A, S)`; and any teacher whose subjects' assigned-slot stream
has no repeated slot is absent from the report. -/
theorem C4_find_teacher_conflicts_pairs_with_claimant (s : Scheduler)
    (hwf : s.teachers.WF) (T : Teacher) (L : List Subject)
    (hmem : (T, L) ∈ s.teachers.entries)
    (A B : Subject) (s0 : Slot) (l1 u w : List (Subject × Slot))
    (hsplit : pairStream s.schedule L = l1 ++ (A, s0) :: u ++ (B, s0) :: w)
    (hfirst : s0 ∉ l1.map Prod.snd) :
    (∃ pre post, ((s.find_teacher_conflicts).get? T).getD [] =
        pre ++ (B, s0) :: (A, s0) :: post) ∧
    (∀ (U : Teacher) (M : List Subject), (U, M) ∈ s.teachers.entries →
      ((pairStream s.schedule M).map Prod.snd).Nodup →
      (s.find_teacher_conflicts).get? U = none) := by
  constructor
  · have hocc1 : (scanOcc l1 (Dict.empty : Dict Slot Subject)).get? s0 = none :=
      scanOcc_get?_of_not_mem hfirst
    have hocc2 : (scanOcc (l1 ++ (A, s0) :: u) (Dict.empty : Dict Slot Subject)).get? s0
        = some A := by
      rw [scanOcc_append]
      simp only [scanOcc, hocc1]
      exact scanOcc_get?_of_some (Dict.get?_set_self _ s0 A)
    have hcl : conflictList s.schedule L =
        scanConf (l1 ++ (A, s0) :: u) Dict.empty ++
          ((B, s0) :: (A, s0) ::
            scanConf w (scanOcc (l1 ++ (A, s0) :: u) Dict.empty)) := by
      rw [conflictList, hsplit, scanConf_append]
      congr 1
      simp only [scanConf, hocc2]
    have hne : conflictList s.schedule L ≠ [] := by
      rw [hcl]
      intro hh
      rcases List.append_eq_nil.mp hh with ⟨_, h2⟩
      cases h2
    rw [find_teacher_conflicts_char hwf, conflictsSpec_get? hwf hmem,
      if_neg (by simpa using hne), Option.getD_some, hcl]
    exact ⟨scanConf (l1 ++ (A, s0) :: u) Dict.empty,
      scanConf w (scanOcc (l1 ++ (A, s0) :: u) Dict.empty), rfl⟩
  · intro U M hmemU hnodup
    rw [find_teacher_conflicts_char hwf, conflictsSpec_get? hwf hmemU,
      if_pos (by
        rw [(conflictList_eq_nil_iff s.schedule M).mpr hnodup]
        rfl)]

/-- C4 witness: teacher `T` with subjects `[A, B]`, both on one slot — the
report entry for `T` is exactly `(B, S)` then `(A, S)`, and conflict-free
teacher `U` is absent. -/
theorem C4_find_teacher_conflicts_pairs_with_claimant_witness :
    (∃ pre post, ((Scheduler.find_teacher_conflicts
        ⟨["A", "B"], ⟨[("T", ["A", "B"]), ("U", ["A"])]⟩, [("M", "9")],
          ⟨[("A", [("M", "9")]), ("B", [("M", "9")])]⟩⟩).get? "T").getD [] =
        pre ++ ("B", ("M", "9")) :: ("A", ("M", "9")) :: post) ∧
    (Scheduler.find_teacher_conflicts
        ⟨["A", "B"], ⟨[("T", ["A", "B"]), ("U", ["A"])]⟩, [("M", "9")],
          ⟨[("A", [("M", "9")]), ("B", [("M", "9")])]⟩⟩).get? "U" = none := by
  have h := C4_find_teacher_conflicts_pairs_with_claimant
    ⟨["A", "B"], ⟨[("T", ["A", "B"]), ("U", ["A"])]⟩, [("M", "9")],
      ⟨[("A", [("M", "9")]), ("B", [("M", "9")])]⟩⟩
    (by decide) "T" ["A", "B"] (by decide) "A" "B" ("M", "9") [] [] []
    (by decide) (by decide)
  exact ⟨h.1, h.2 "U" ["A"] (by decide) (by decide)⟩

/-! ## Claim C1: totality of the pipeline -/

theorem mem_setKey {α β : Type} [DecidableEq α] {q : α × β} {k : α} {v : β}
    {l : List (α × β)} (h : q ∈ Dict.setKey k v l) : q ∈ l ∨ q = (k, v) := by
  induction l with
  | nil => simpa [Dict.setKey] using h
  | cons p ps ih =>
    rw [Dict.setKey] at h
    split at h
    · rcases List.mem_cons.mp h with rfl | hm
      · exact Or.inr rfl
      · exact Or.inl (List.mem_cons_of_mem p hm)
    · rcases List.mem_cons.mp h with rfl | hm
      · exact Or.inl (List.mem_cons_self _ _)
      · rcases ih hm with h1 | h1
        · exact Or.inl (List.mem_cons_of_mem p h1)
        · exact Or.inr h1

theorem schedulePairwise_symm :
    ∀ {p q : Subject × List Slot},
      (p.1 ≠ q.1 ∧ ∀ x ∈ p.2, x ∉ q.2) → (q.1 ≠ p.1 ∧ ∀ x ∈ q.2, x ∉ p.2) := by
  rintro p q ⟨h1, h2⟩
  exact ⟨h1.symm, fun x hx hx' => h2 x hx' hx⟩

theorem schedulePairwise_setKey {l : List (Subject × List Slot)} {k : Subject}
    {v : List Slot} (hl : SchedulePairwise l)
    (hfresh : ∀ q ∈ l, ∀ x ∈ v, x ∉ q.2) :
    SchedulePairwise (Dict.setKey k v l) := by
  induction l with
  | nil => simp [Dict.setKey, SchedulePairwise]
  | cons p ps ih =>
    rw [SchedulePairwise, List.pairwise_cons] at hl
    rw [Dict.setKey]
    split
    · rename_i hp
      rw [SchedulePairwise, List.pairwise_cons]
      refine ⟨?_, hl.2⟩
      intro q hq
      have hr := hl.1 q hq
      refine ⟨by rw [← hp]; exact hr.1, ?_⟩
      intro x hx
      exact hfresh q (List.mem_cons_of_mem p hq) x hx
    · rename_i hp
      rw [SchedulePairwise, List.pairwise_cons]
      constructor
      · intro q hq
        rcases mem_setKey hq with hm | rfl
        · exact hl.1 q hm
        · exact ⟨hp, fun x hx hx' =>
            hfresh p (List.mem_cons_self p ps) x hx' hx⟩
      · exact ih hl.2 (fun q hq => hfresh q (List.mem_cons_of_mem p hq))

theorem initInv_set_cons {sch : Dict Subject (List Slot)} {sub : Subject} {slot : Slot}
    {rest : List Slot} (h : InitInv sch (slot :: rest)) :
    InitInv (sch.set sub [slot]) rest := by
  obtain ⟨hpw, hlen, hav, hnd⟩ := h
  rw [List.nodup_cons] at hnd
  have hfresh : ∀ q ∈ sch.entries, ∀ x ∈ ([slot] : List Slot), x ∉ q.2 := by
    intro q hq x hx hx'
    rw [List.mem_singleton] at hx
    exact hav q hq x hx' (hx ▸ List.mem_cons_self slot rest)
  refine ⟨schedulePairwise_setKey hpw hfresh, ?_, ?_, hnd.2⟩
  · intro p hp
    rcases mem_setKey hp with hm | rfl
    · exact hlen p hm
    · simp
  · intro p hp x hx
    rcases mem_setKey hp with hm | rfl
    · exact fun hr => hav p hm x hx (List.mem_cons_of_mem slot hr)
    · rw [List.mem_singleton] at hx
      exact hx ▸ hnd.1

theorem initInv_set_nil {sch : Dict Subject (List Slot)} {sub : Subject}
    (h : InitInv sch []) : InitInv (sch.set sub []) [] := by
  obtain ⟨hpw, hlen, hav, hnd⟩ := h
  refine ⟨schedulePairwise_setKey hpw (by simp), ?_, ?_, hnd⟩
  · intro p hp
    rcases mem_setKey hp with hm | rfl
    · exact hlen p hm
    · simp
  · intro p hp x hx
    rcases mem_setKey hp with hm | rfl
    · exact hav p hm x hx
    · cases hx

theorem initFold_initInv (subs : List Subject) :
    ∀ (slots : List Slot) (sch : Dict Subject (List Slot)), InitInv sch slots →
      SchedulePairwise (initFold subs slots sch).entries ∧
      ∀ p ∈ (initFold subs slots sch).entries, p.2.length ≤ 1 := by
  induction subs with
  | nil =>
    intro slots sch h
    exact ⟨h.1, h.2.1⟩
  | cons sub rest ih =>
    intro slots sch h
    cases slots with
    | nil => exact ih [] _ (initInv_set_nil h)
    | cons slot srest => exact ih srest _ (initInv_set_cons h)

theorem nodup_of_length_le_one {l : List Slot} (h : l.length ≤ 1) : l.Nodup := by
  cases l with
  | nil => simp
  | cons x xs =>
    cases xs with
    | nil => simp
    | cons y ys => simp at h

theorem stream_nodup_of_schedulePairwise {sch : Dict Subject (List Slot)}
    (hpw : SchedulePairwise sch.entries)
    (hlen : ∀ p ∈ sch.entries, p.2.length ≤ 1)
    {L : List Subject} (hL : L.Nodup) :
    ((pairStream sch L).map Prod.snd).Nodup := by
  rw [pairStream_map_snd]
  induction L with
  | nil => simp
  | cons sub rest ih =>
    rw [List.nodup_cons] at hL
    rw [List.flatMap_cons, List.nodup_append]
    refine ⟨?_, ih hL.2, ?_⟩
    · rcases hg : sch.get? sub with _ | l
      · simp
      · exact nodup_of_length_le_one (hlen (sub, l) (Dict.mem_of_get?_eq_some hg))
    · intro x hx hx'
      rcases List.mem_flatMap.mp hx' with ⟨sub', hsub', hxs'⟩
      have hne : sub ≠ sub' := fun hh => hL.1 (hh ▸ hsub')
      rcases hg : sch.get? sub with _ | l
      · rw [hg] at hx
        cases hx
      · rcases hg' : sch.get? sub' with _ | l'
        · rw [hg'] at hxs'
          cases hxs'
        · rw [hg] at hx
          rw [hg'] at hxs'
          have hm : (sub, l) ∈ sch.entries := Dict.mem_of_get?_eq_some hg
          have hm' : (sub', l') ∈ sch.entries := Dict.mem_of_get?_eq_some hg'
          have hne2 : (sub, l) ≠ (sub', l') := fun hh => hne (congrArg Prod.fst hh)
          have hR := List.Pairwise.forall
            (fun p q h => schedulePairwise_symm h) hpw hm hm' hne2
          exact hR.2 x (by simpa using hx) (by simpa using hxs')

theorem foldl_mergeConf_nil (sch : Dict Subject (List Slot))
    (ts : List (Teacher × List Subject))
    (h : ∀ tp ∈ ts, conflictList sch tp.2 = [])
    (acc : Dict Teacher (List (Subject × Slot))) :
    ts.foldl (fun conf tp => mergeConf conf tp.1 (conflictList sch tp.2)) acc = acc := by
  induction ts generalizing acc with
  | nil => rfl
  | cons tp rest ih =>
    rw [List.foldl_cons, h tp (List.mem_cons_self _ _), mergeConf_nil]
    exact ih (fun q hq => h q (List.mem_cons_of_mem _ hq)) acc

theorem find_teacher_conflicts_empty {s : Scheduler}
    (h : ∀ tp ∈ s.teachers.entries, conflictList s.schedule tp.2 = []) :
    s.find_teacher_conflicts = Dict.empty := by
  rw [find_teacher_conflicts_eq]
  exact foldl_mergeConf_nil _ _ h _

theorem resolve_of_no_conflicts {s : Scheduler}
    (h : s.find_teacher_conflicts = Dict.empty) :
    s.resolve_teacher_conflicts = Except.ok s := by
  rw [Scheduler.resolve_teacher_conflicts, h]
  rfl

/-- C1 counterexample: the pipeline *can* raise.  With teacher `T` listing
subject `A` twice and a spare slot, and likewise with distinct subjects but a
duplicated slot value shared between two teachers, `resolve_teacher_conflicts`
reaches `self.schedule[subject].remove(time_slot)` after the subject has
already been moved away from `time_slot`, and Python raises `ValueError`. -/
theorem C1_counterexample_pipeline_raises :
    pipeline ["A"] ⟨[("T", ["A", "A"])]⟩ [("M", "9"), ("M", "10")] =
      Except.error "ValueError: list.remove(x): x not in list" ∧
    pipeline ["A", "B", "C"] ⟨[("T1", ["A", "B"]), ("T2", ["A", "C"])]⟩
        [("M", "9"), ("M", "9"), ("M", "9"), ("M", "10"), ("M", "11"), ("M", "12"), ("M", "1")] =
      Except.error "ValueError: list.remove(x): x not in list" :=
  ⟨rfl, rfl⟩

/-- C1 (amended: the time-slot list and every teacher's subject list are
duplicate-free): the pipeline `initialize_schedule`;
`resolve_teacher_conflicts`; `finalize_schedule` never raises — it returns a
final scheduler state for every such instance, however infeasible. -/
theorem C1_pipeline_total_of_nodup (subjects : List Subject)
    (teachers : Dict Teacher (List Subject)) (time_slots : List Slot)
    (hts : time_slots.Nodup)
    (hteach : ∀ tp ∈ teachers.entries, tp.2.Nodup) :
    ∃ s2, pipeline subjects teachers time_slots = Except.ok s2 := by
  have hinv : InitInv Dict.empty time_slots :=
    ⟨List.Pairwise.nil, by simp [Dict.empty], by simp [Dict.empty], hts⟩
  have hfold := initFold_initInv subjects time_slots Dict.empty hinv
  have hconf : ((mkScheduler subjects teachers time_slots).initialize_schedule).find_teacher_conflicts
      = Dict.empty := by
    refine find_teacher_conflicts_empty ?_
    intro tp hm
    rw [conflictList_eq_nil_iff]
    exact stream_nodup_of_schedulePairwise hfold.1 hfold.2 (hteach tp hm)
  have hres := resolve_of_no_conflicts hconf
  refine ⟨((mkScheduler subjects teachers time_slots).initialize_schedule).finalize_schedule, ?_⟩
  rw [pipeline, hres]

/-- C1 witness: the demo instance (distinct subjects, distinct slots,
duplicate-free teacher lists) runs to completion. -/
theorem C1_pipeline_total_of_nodup_witness :
    ∃ s2, pipeline ["Math", "Physics", "Chemistry", "Biology"]
        ⟨[("Alice", ["Math", "Physics"]), ("Bob", ["Chemistry"]), ("Charlie", ["Biology"])]⟩
        [("Monday", "9AM"), ("Monday", "10AM"), ("Monday", "11AM")] = Except.ok s2 :=
  C1_pipeline_total_of_nodup _ _ _ (by decide) (by decide)

/-! ## Claim C9: slot lists stay at length at most one -/

theorem initFold_length_le {subs : List Subject} {slots : List Slot}
    {sch : Dict Subject (List Slot)} (h : ∀ p ∈ sch.entries, p.2.length ≤ 1) :
    ∀ p ∈ (initFold subs slots sch).entries, p.2.length ≤ 1 := by
  induction subs generalizing slots sch with
  | nil => exact h
  | cons sub rest ih =>
    cases slots with
    | nil =>
      refine ih ?_
      intro p hp
      rcases mem_setKey hp with hm | rfl
      · exact h p hm
      · simp
    | cons slot srest =>
      refine ih ?_
      intro p hp
      rcases mem_setKey hp with hm | rfl
      · exact h p hm
      · simp

theorem initFold_WF {subs : List Subject} {slots : List Slot}
    {sch : Dict Subject (List Slot)} (h : sch.WF) : (initFold subs slots sch).WF := by
  induction subs generalizing slots sch with
  | nil => exact h
  | cons sub rest ih =>
    cases slots with
    | nil => exact ih (h.set sub [])
    | cons slot srest => exact ih (h.set sub [slot])

theorem find?_swap_spec {sch : Dict Subject (List Slot)} {p : Subject × Slot}
    {q : Subject × List Slot}
    (h : sch.entries.find? (fun q => decide (q.1 ≠ p.1) && decide (p.2 ∈ q.2)) = some q) :
    q ∈ sch.entries ∧ q.1 ≠ p.1 ∧ p.2 ∈ q.2 := by
  refine ⟨List.mem_of_find?_eq_some h, ?_⟩
  have := List.find?_some h
  simp only [Bool.and_eq_true, decide_eq_true_eq] at this
  exact this

theorem resolveStep_none_none {ts : List Slot} {sch : Dict Subject (List Slot)}
    {p : Subject × Slot} (halt : findAlternative sch ts = none)
    (hsw : sch.entries.find? (fun q => decide (q.1 ≠ p.1) && decide (p.2 ∈ q.2)) = none) :
    resolveStep ts sch p = Except.ok sch := by
  unfold resolveStep
  simp only [halt, hsw]

theorem resolveStep_none_some {ts : List Slot} {sch : Dict Subject (List Slot)}
    {p : Subject × Slot} {q : Subject × List Slot}
    (halt : findAlternative sch ts = none)
    (hsw : sch.entries.find? (fun q => decide (q.1 ≠ p.1) && decide (p.2 ∈ q.2)) = some q) :
    resolveStep ts sch p = Except.ok ((sch.set q.1 (q.2.erase p.2)).set q.1
      ((q.2.erase p.2) ++ [(findAlternative (sch.set q.1 (q.2.erase p.2)) ts).getD p.2])) := by
  unfold resolveStep
  simp only [halt, hsw]

theorem resolveStep_some_found {ts : List Slot} {sch : Dict Subject (List Slot)}
    {p : Subject × Slot} {alt : Slot} {l : List Slot}
    (halt : findAlternative sch ts = some alt) (hg : sch.get? p.1 = some l) :
    resolveStep ts sch p =
      if p.2 ∈ l then Except.ok (sch.set p.1 ((l.erase p.2) ++ [alt]))
      else Except.error "ValueError: list.remove(x): x not in list" := by
  unfold resolveStep
  simp only [halt, hg]

theorem resolveStep_some_keyError {ts : List Slot} {sch : Dict Subject (List Slot)}
    {p : Subject × Slot} {alt : Slot}
    (halt : findAlternative sch ts = some alt) (hg : sch.get? p.1 = none) :
    resolveStep ts sch p = Except.error "KeyError" := by
  unfold resolveStep
  simp only [halt, hg]

theorem resolveStep_length {ts : List Slot} {sch sch' : Dict Subject (List Slot)}
    {p : Subject × Slot} (hwf : sch.WF)
    (h : resolveStep ts sch p = Except.ok sch') :
    sch'.WF ∧ ∀ sub, ((sch'.get? sub).getD []).length = ((sch.get? sub).getD []).length := by
  rcases halt : findAlternative sch ts with _ | alt
  · rcases hsw : sch.entries.find? (fun q => decide (q.1 ≠ p.1) && decide (p.2 ∈ q.2))
      with _ | q
    · rw [resolveStep_none_none halt hsw] at h
      obtain rfl : sch = sch' := by injection h
      exact ⟨hwf, fun _ => rfl⟩
    · obtain ⟨hqm, hqne, hqmem⟩ := find?_swap_spec hsw
      rw [resolveStep_none_some halt hsw] at h
      obtain rfl : (sch.set q.1 (q.2.erase p.2)).set q.1
          ((q.2.erase p.2) ++
            [(findAlternative (sch.set q.1 (q.2.erase p.2)) ts).getD p.2]) = sch' := by
        injection h
      rw [Dict.set_set]
      refine ⟨hwf.set _ _, ?_⟩
      intro sub
      by_cases hsub : sub = q.1
      · rw [hsub, Dict.get?_set_self]
        have hgq : sch.get? q.1 = some q.2 := by
          refine Dict.get?_eq_some_of_mem hwf ?_
          rcases q with ⟨q1, q2⟩
          exact hqm
        rw [hgq]
        simp only [Option.getD_some, List.length_append, List.length_singleton]
        rw [List.length_erase_of_mem hqmem]
        have : 1 ≤ q.2.length := List.length_pos.mpr (List.ne_nil_of_mem hqmem)
        omega
      · rw [Dict.get?_set_ne hsub]
  · rcases hg : sch.get? p.1 with _ | l
    · rw [resolveStep_some_keyError halt hg] at h
      cases h
    · rw [resolveStep_some_found halt hg] at h
      by_cases hmem : p.2 ∈ l
      · rw [if_pos hmem] at h
        obtain rfl : sch.set p.1 ((l.erase p.2) ++ [alt]) = sch' := by injection h
        refine ⟨hwf.set _ _, ?_⟩
        intro sub
        by_cases hsub : sub = p.1
        · rw [hsub, Dict.get?_set_self, hg]
          simp only [Option.getD_some, List.length_append, List.length_singleton]
          rw [List.length_erase_of_mem hmem]
          have : 1 ≤ l.length := List.length_pos.mpr (List.ne_nil_of_mem hmem)
          omega
        · rw [Dict.get?_set_ne hsub]
      · rw [if_neg hmem] at h
        cases h

theorem resolveFold_length {ts : List Slot} {records : List (Subject × Slot)}
    {sch sch' : Dict Subject (List Slot)} (hwf : sch.WF)
    (h : resolveFold ts records sch = Except.ok sch') :
    sch'.WF ∧ ∀ sub, ((sch'.get? sub).getD []).length = ((sch.get? sub).getD []).length := by
  induction records generalizing sch with
  | nil =>
    obtain rfl : sch = sch' := by
      rw [resolveFold] at h
      injection h
    exact ⟨hwf, fun _ => rfl⟩
  | cons p ps ih =>
    rw [resolveFold] at h
    rcases hstep : resolveStep ts sch p with e | sch2 <;> rw [hstep] at h
    · cases h
    · obtain ⟨hwf2, hlen2⟩ := resolveStep_length hwf hstep
      obtain ⟨hwf', hlen'⟩ := ih hwf2 h
      exact ⟨hwf', fun sub => (hlen' sub).trans (hlen2 sub)⟩

theorem resolve_ok_inv {s s2 : Scheduler}
    (h : s.resolve_teacher_conflicts = Except.ok s2) :
    resolveFold s.time_slots (s.find_teacher_conflicts.entries.flatMap Prod.snd) s.schedule
        = Except.ok s2.schedule ∧
      s2.subjects = s.subjects ∧ s2.teachers = s.teachers ∧ s2.time_slots = s.time_slots := by
  rw [Scheduler.resolve_teacher_conflicts] at h
  rcases heq : resolveFold s.time_slots
      (s.find_teacher_conflicts.entries.flatMap Prod.snd) s.schedule with e | sch
    <;> rw [heq] at h
  · cases h
  · obtain rfl : { s with schedule := sch } = s2 := by injection h
    exact ⟨rfl, rfl, rfl, rfl⟩

theorem finFold_length_le {subs : List Subject} {slots : List Slot}
    {sch : Dict Subject (List Slot)} (h : ∀ p ∈ sch.entries, p.2.length ≤ 1) :
    ∀ p ∈ (finFold subs slots sch).entries, p.2.length ≤ 1 := by
  induction subs generalizing slots sch with
  | nil => exact h
  | cons sub rest ih =>
    cases slots with
    | nil =>
      rw [finFold]
      exact ih h
    | cons slot srest =>
      refine ih ?_
      intro p hp
      rcases mem_setKey hp with hm | rfl
      · exact h p hm
      · simp

/-- C9: every subject's slot list has length at most one after each phase of
the pipeline: `initialize_schedule` produces singleton-or-empty lists, a
successful `resolve_teacher_conflicts` removes one slot for each one it
appends, and `finalize_schedule` only turns empty lists into singletons. -/
theorem C9_slot_lists_length_le_one (subjects : List Subject)
    (teachers : Dict Teacher (List Subject)) (time_slots : List Slot) :
    (∀ sub l, ((mkScheduler subjects teachers time_slots).initialize_schedule).schedule.get? sub
        = some l → l.length ≤ 1) ∧
    (∀ s2, ((mkScheduler subjects teachers time_slots).initialize_schedule).resolve_teacher_conflicts
        = Except.ok s2 →
      (∀ sub l, s2.schedule.get? sub = some l → l.length ≤ 1) ∧
      (∀ sub l, s2.finalize_schedule.schedule.get? sub = some l → l.length ≤ 1)) := by
  have hinit : ∀ p ∈ ((mkScheduler subjects teachers time_slots).initialize_schedule).schedule.entries,
      p.2.length ≤ 1 :=
    initFold_length_le (by simp [mkScheduler, Dict.empty])
  have hwf1 : ((mkScheduler subjects teachers time_slots).initialize_schedule).schedule.WF :=
    initFold_WF (by simp [mkScheduler, Dict.empty, Dict.WF, Dict.keys])
  constructor
  · intro sub l hg
    exact hinit (sub, l) (Dict.mem_of_get?_eq_some hg)
  · intro s2 hres
    obtain ⟨hfold, _, _, _⟩ := resolve_ok_inv hres
    obtain ⟨hwf2, hlen2⟩ := resolveFold_length hwf1 hfold
    have hs2 : ∀ sub l, s2.schedule.get? sub = some l → l.length ≤ 1 := by
      intro sub l hg
      have h1 := hlen2 sub
      rw [hg] at h1
      simp only [Option.getD_some] at h1
      rw [h1]
      rcases hg0 : ((mkScheduler subjects teachers time_slots).initialize_schedule).schedule.get? sub
        with _ | l0
      · simp
      · simpa using hinit (sub, l0) (Dict.mem_of_get?_eq_some hg0)
    refine ⟨hs2, ?_⟩
    have hent2 : ∀ p ∈ s2.schedule.entries, p.2.length ≤ 1 := by
      intro p hp
      rcases p with ⟨sub, l⟩
      exact hs2 sub l (Dict.get?_eq_some_of_mem hwf2 hp)
    intro sub l hg
    exact finFold_length_le hent2 (sub, l) (Dict.mem_of_get?_eq_some hg)

/-- C9 witness: on the demo instance the resolution phase succeeds and the
theorem applies, bounding `Math`'s final slot list. -/
theorem C9_slot_lists_length_le_one_witness :
    ∃ l, (Scheduler.finalize_schedule
        ⟨["Math", "Physics", "Chemistry", "Biology"],
          ⟨[("Alice", ["Math", "Physics"]), ("Bob", ["Chemistry"]), ("Charlie", ["Biology"])]⟩,
          [("Monday", "9AM"), ("Monday", "10AM"), ("Monday", "11AM")],
          ⟨[("Math", [("Monday", "9AM")]), ("Physics", [("Monday", "10AM")]),
            ("Chemistry", [("Monday", "11AM")]), ("Biology", [])]⟩⟩).schedule.get? "Math"
      = some l ∧ l.length ≤ 1 := by
  have h := (C9_slot_lists_length_le_one ["Math", "Physics", "Chemistry", "Biology"]
      ⟨[("Alice", ["Math", "Physics"]), ("Bob", ["Chemistry"]), ("Charlie", ["Biology"])]⟩
      [("Monday", "9AM"), ("Monday", "10AM"), ("Monday", "11AM")]).2
    ⟨["Math", "Physics", "Chemistry", "Biology"],
      ⟨[("Alice", ["Math", "Physics"]), ("Bob", ["Chemistry"]), ("Charlie", ["Biology"])]⟩,
      [("Monday", "9AM"), ("Monday", "10AM"), ("Monday", "11AM")],
      ⟨[("Math", [("Monday", "9AM")]), ("Physics", [("Monday", "10AM")]),
        ("Chemistry", [("Monday", "11AM")]), ("Biology", [])]⟩⟩ rfl
  exact ⟨[("Monday", "9AM")], rfl, h.2 "Math" [("Monday", "9AM")] rfl⟩

/-! ## Claim C6: a saturated slot pool makes resolution a per-list no-op -/

theorem WF.value_unique {d : Dict Subject (List Slot)} (hwf : d.WF) {k : Subject}
    {v1 v2 : List Slot} (h1 : (k, v1) ∈ d.entries) (h2 : (k, v2) ∈ d.entries) : v1 = v2 := by
  have e1 := Dict.get?_eq_some_of_mem hwf h1
  have e2 := Dict.get?_eq_some_of_mem hwf h2
  rw [e1] at e2
  injection e2

theorem occupiedBy_of_perm {sch sch' : Dict Subject (List Slot)}
    (hwf : sch.WF) (hwf' : sch'.WF)
    (hperm : ∀ sub, ((sch'.get? sub).getD []).Perm ((sch.get? sub).getD []))
    {t : Slot} (h : occupiedBy sch t = true) : occupiedBy sch' t = true := by
  obtain ⟨sub, l, hg, ht⟩ := (occupiedBy_wf_iff hwf).mp h
  have hmem : t ∈ (sch'.get? sub).getD [] := by
    refine (hperm sub).mem_iff.mpr ?_
    rw [hg]
    exact ht
  rcases hg' : sch'.get? sub with _ | l'
  · rw [hg'] at hmem
    cases hmem
  · rw [hg'] at hmem
    exact (occupiedBy_wf_iff hwf').mpr ⟨sub, l', hg', hmem⟩

theorem perm_cons_erase_slot {l : List Slot} {a : Slot} (h : a ∈ l) :
    l.Perm (a :: l.erase a) := by
  induction l with
  | nil => cases h
  | cons x xs ih =>
    rw [List.erase_cons]
    by_cases hx : x = a
    · subst hx
      rw [if_pos (by simp)]
    · rw [if_neg (by simp [hx])]
      rcases List.mem_cons.mp h with rfl | hm
      · exact absurd rfl hx
      · exact (List.Perm.cons x (ih hm)).trans (List.Perm.swap a x _)

theorem resolveStep_saturated {ts : List Slot} {sch : Dict Subject (List Slot)}
    (p : Subject × Slot) (hwf : sch.WF)
    (hocc : ∀ t ∈ ts, occupiedBy sch t = true) :
    ∃ sch', resolveStep ts sch p = Except.ok sch' ∧ sch'.WF ∧
      ∀ sub, ((sch'.get? sub).getD []).Perm ((sch.get? sub).getD []) := by
  have halt : findAlternative sch ts = none := findAlternative_eq_none_iff.mpr hocc
  rcases hsw : sch.entries.find? (fun q => decide (q.1 ≠ p.1) && decide (p.2 ∈ q.2))
    with _ | q
  · exact ⟨sch, resolveStep_none_none halt hsw, hwf, fun _ => List.Perm.refl _⟩
  · obtain ⟨hqm, hqne, hqmem⟩ := find?_swap_spec hsw
    have hgq : sch.get? q.1 = some q.2 := by
      refine Dict.get?_eq_some_of_mem hwf ?_
      rcases q with ⟨q1, q2⟩
      exact hqm
    have hwf1 : (sch.set q.1 (q.2.erase p.2)).WF := hwf.set _ _
    have hocc1 : ∀ t ∈ ts, t ≠ p.2 → occupiedBy (sch.set q.1 (q.2.erase p.2)) t = true := by
      intro t hts htne
      obtain ⟨sub, l, hg, htl⟩ := (occupiedBy_wf_iff hwf).mp (hocc t hts)
      by_cases hs : sub = q.1
      · subst hs
        rw [hgq] at hg
        obtain rfl : q.2 = l := by injection hg
        refine (occupiedBy_wf_iff hwf1).mpr ⟨q.1, q.2.erase p.2, Dict.get?_set_self _ _ _, ?_⟩
        exact (List.mem_erase_of_ne htne).mpr htl
      · exact (occupiedBy_wf_iff hwf1).mpr ⟨sub, l, by rw [Dict.get?_set_ne hs]; exact hg, htl⟩
    have halt2 : (findAlternative (sch.set q.1 (q.2.erase p.2)) ts).getD p.2 = p.2 := by
      rcases h2 : findAlternative (sch.set q.1 (q.2.erase p.2)) ts with _ | u
      · rfl
      · obtain ⟨humem, hufree⟩ := findAlternative_mem_and_free h2
        rcases eq_or_ne u p.2 with rfl | hune
        · rfl
        · rw [hocc1 u humem hune] at hufree
          cases hufree
    refine ⟨sch.set q.1 ((q.2.erase p.2) ++ [p.2]), ?_, hwf.set _ _, ?_⟩
    · rw [resolveStep_none_some halt hsw, halt2, Dict.set_set]
    · intro sub
      by_cases hs : sub = q.1
      · rw [hs, Dict.get?_set_self, hgq]
        simp only [Option.getD_some]
        exact (List.perm_append_singleton _ _).trans (perm_cons_erase_slot hqmem).symm
      · rw [Dict.get?_set_ne hs]

theorem resolveFold_saturated {ts : List Slot} (records : List (Subject × Slot))
    {sch : Dict Subject (List Slot)} (hwf : sch.WF)
    (hocc : ∀ t ∈ ts, occupiedBy sch t = true) :
    ∃ sch', resolveFold ts records sch = Except.ok sch' ∧ sch'.WF ∧
      ∀ sub, ((sch'.get? sub).getD []).Perm ((sch.get? sub).getD []) := by
  induction records generalizing sch with
  | nil => exact ⟨sch, rfl, hwf, fun _ => List.Perm.refl _⟩
  | cons p ps ih =>
    obtain ⟨sch2, hstep, hwf2, hperm2⟩ := resolveStep_saturated p hwf hocc
    have hocc2 : ∀ t ∈ ts, occupiedBy sch2 t = true :=
      fun t ht => occupiedBy_of_perm hwf hwf2 hperm2 (hocc t ht)
    obtain ⟨sch', hfold, hwf', hperm'⟩ := ih hwf2 hocc2
    refine ⟨sch', ?_, hwf', fun sub => (hperm' sub).trans (hperm2 sub)⟩
    simp only [resolveFold, hstep]
    exact hfold

theorem pairStream_perm_of_perm {sch sch' : Dict Subject (List Slot)}
    (hperm : ∀ sub, ((sch'.get? sub).getD []).Perm ((sch.get? sub).getD []))
    (L : List Subject) :
    ((pairStream sch' L).map Prod.snd).Perm ((pairStream sch L).map Prod.snd) := by
  rw [pairStream_map_snd, pairStream_map_snd]
  induction L with
  | nil => rfl
  | cons sub rest ih =>
    rw [List.flatMap_cons, List.flatMap_cons]
    exact (hperm sub).append ih

/-- C6: if every time slot is occupied by some subject and two distinct
subjects of one teacher share a slot, `resolve_teacher_conflicts` succeeds,
every subject's slot list afterwards holds exactly the slots it held before
(as a multiset: the swap fallback re-appends the removed slot), and a
subsequent `find_teacher_conflicts` still reports a conflict for that
teacher. -/
theorem C6_resolve_saturated_no_op (s : Scheduler)
    (hwfs : s.schedule.WF) (hwft : s.teachers.WF)
    (hocc : ∀ t ∈ s.time_slots, occupiedBy s.schedule t = true)
    (T : Teacher) (L : List Subject) (hmem : (T, L) ∈ s.teachers.entries)
    (A B : Subject) (s0 : Slot) (hAB : A ≠ B)
    (hA : (A, s0) ∈ pairStream s.schedule L) (hB : (B, s0) ∈ pairStream s.schedule L) :
    ∃ s2, s.resolve_teacher_conflicts = Except.ok s2 ∧
      (∀ sub, ((s2.schedule.get? sub).getD []).Perm ((s.schedule.get? sub).getD [])) ∧
      (s2.find_teacher_conflicts).get? T ≠ none := by
  obtain ⟨sch', hfold, hwf', hperm'⟩ :=
    resolveFold_saturated (s.find_teacher_conflicts.entries.flatMap Prod.snd) hwfs hocc
  have hres : s.resolve_teacher_conflicts = Except.ok { s with schedule := sch' } := by
    rw [Scheduler.resolve_teacher_conflicts, hfold]
  have hdup : ¬ ((pairStream s.schedule L).map Prod.snd).Nodup := by
    intro hnd
    exact hAB (congrArg Prod.fst (List.inj_on_of_nodup_map hnd hA hB rfl))
  refine ⟨{ s with schedule := sch' }, hres, hperm', ?_⟩
  have hdup' : ¬ ((pairStream sch' L).map Prod.snd).Nodup := by
    intro hnd
    exact hdup ((pairStream_perm_of_perm hperm' L).nodup_iff.mp hnd)
  have hcl : conflictList sch' L ≠ [] := by
    intro hnil
    exact hdup' ((conflictList_eq_nil_iff sch' L).mp hnil)
  have hchar := conflictsSpec_get?
    (s := { s with schedule := sch' }) hwft (T := T) (L := L) hmem
  rw [find_teacher_conflicts_char (s := { s with schedule := sch' }) hwft, hchar,
    if_neg (by simpa using hcl)]
  simp

/-- C6 witness: teacher `T` with `A`, `B` both on the 9AM slot and `C`
holding the only other slot — resolution succeeds, every slot list is
preserved, and the conflict is still reported. -/
theorem C6_resolve_saturated_no_op_witness :
    ∃ s2, (Scheduler.resolve_teacher_conflicts
        ⟨["A", "B", "C"], ⟨[("T", ["A", "B"])]⟩, [("M", "9"), ("M", "10")],
          ⟨[("A", [("M", "9")]), ("B", [("M", "9")]), ("C", [("M", "10")])]⟩⟩)
        = Except.ok s2 ∧
      (∀ sub, ((s2.schedule.get? sub).getD []).Perm
        (((Dict.mk [("A", [("M", "9")]), ("B", [("M", "9")]), ("C", [("M", "10")])]
          : Dict Subject (List Slot)).get? sub).getD [])) ∧
      (s2.find_teacher_conflicts).get? "T" ≠ none :=
  C6_resolve_saturated_no_op
    ⟨["A", "B", "C"], ⟨[("T", ["A", "B"])]⟩, [("M", "9"), ("M", "10")],
      ⟨[("A", [("M", "9")]), ("B", [("M", "9")]), ("C", [("M", "10")])]⟩⟩
    (by decide) (by decide) (by decide) "T" ["A", "B"] (by decide)
    "A" "B" ("M", "9") (by decide) (by decide) (by decide)

/-! ## Counting lemmas for claim C5 -/

theorem cnt_append {α : Type} [DecidableEq α] (x : α) (l1 l2 : List α) :
    cnt x (l1 ++ l2) = cnt x l1 + cnt x l2 := by
  induction l1 with
  | nil => simp [cnt]
  | cons y ys ih => rw [List.cons_append, cnt, cnt, ih]; omega

theorem cnt_pos_of_mem {α : Type} [DecidableEq α] {x : α} {l : List α} (h : x ∈ l) :
    1 ≤ cnt x l := by
  induction l with
  | nil => cases h
  | cons y ys ih =>
    rw [cnt]
    rcases List.mem_cons.mp h with rfl | hm
    · simp
    · have := ih hm
      omega

theorem cnt_eq_zero_of_not_mem {α : Type} [DecidableEq α] {x : α} {l : List α}
    (h : x ∉ l) : cnt x l = 0 := by
  induction l with
  | nil => rfl
  | cons y ys ih =>
    have hne : y ≠ x := fun hh => h (hh ▸ List.mem_cons_self y ys)
    rw [cnt, ih (fun hm => h (List.mem_cons_of_mem y hm)), if_neg hne]

theorem perm_cnt {α : Type} [DecidableEq α] {l1 l2 : List α} (h : l1.Perm l2) (x : α) :
    cnt x l1 = cnt x l2 := by
  induction h with
  | nil => rfl
  | cons y _ ih => rw [cnt, cnt, ih]
  | swap y z l => rw [cnt, cnt, cnt, cnt]; omega
  | trans _ _ ih1 ih2 => rw [ih1, ih2]

theorem nodup_iff_cnt {α : Type} [DecidableEq α] {l : List α} :
    l.Nodup ↔ ∀ x, cnt x l ≤ 1 := by
  induction l with
  | nil => simp [cnt]
  | cons y ys ih =>
    rw [List.nodup_cons, ih]
    constructor
    · rintro ⟨hy, hc⟩ x
      rw [cnt]
      by_cases hx : y = x
      · rw [if_pos hx, cnt_eq_zero_of_not_mem (hx ▸ hy)]
      · rw [if_neg hx]
        have := hc x
        omega
    · intro h
      constructor
      · intro hm
        have h1 := h y
        rw [cnt, if_pos rfl] at h1
        have := cnt_pos_of_mem hm
        omega
      · intro x
        have h1 := h x
        rw [cnt] at h1
        omega

theorem cnt_flatMap {α β : Type} [DecidableEq β] (x : β) (M : List α) (f : α → List β) :
    cnt x (M.flatMap f) = (M.map (fun a => cnt x (f a))).sum := by
  induction M with
  | nil => rfl
  | cons a as ih => rw [List.flatMap_cons, cnt_append, List.map_cons, List.sum_cons, ih]

theorem mul_cnt_le_sum {α : Type} [DecidableEq α] (M : List α) (g : α → Nat) (a : α) :
    cnt a M * g a ≤ (M.map g).sum := by
  induction M with
  | nil => simp [cnt]
  | cons y ys ih =>
    rw [List.map_cons, List.sum_cons, cnt]
    by_cases hy : y = a
    · subst hy
      rw [if_pos rfl, Nat.add_mul, Nat.one_mul]
      omega
    · rw [if_neg hy, Nat.add_zero]
      omega

theorem two_mul_cnt_le_sum {α : Type} [DecidableEq α] (M : List α) (g : α → Nat)
    {a b : α} (hab : a ≠ b) :
    cnt a M * g a + cnt b M * g b ≤ (M.map g).sum := by
  induction M with
  | nil => simp [cnt]
  | cons y ys ih =>
    rw [List.map_cons, List.sum_cons, cnt, cnt]
    by_cases hya : y = a
    · subst hya
      rw [if_pos rfl, if_neg hab]
      simp only [Nat.add_zero]
      rw [Nat.add_mul, Nat.one_mul]
      omega
    · rw [if_neg hya, Nat.add_zero]
      by_cases hyb : y = b
      · subst hyb
        rw [if_pos rfl, Nat.add_mul, Nat.one_mul]
        omega
      · rw [if_neg hyb, Nat.add_zero]
        omega

/-! ## Claim C5: a single two-subject conflict with two free slots -/

theorem dict_value_unique {α β : Type} [DecidableEq α] {d : Dict α β} (hwf : d.WF)
    {k : α} {v1 v2 : β} (h1 : (k, v1) ∈ d.entries) (h2 : (k, v2) ∈ d.entries) : v1 = v2 := by
  have e1 := Dict.get?_eq_some_of_mem hwf h1
  have e2 := Dict.get?_eq_some_of_mem hwf h2
  rw [e1] at e2
  injection e2

theorem filterMap_conflicts_nil (sch : Dict Subject (List Slot))
    (ts : List (Teacher × List Subject))
    (h : ∀ tp ∈ ts, conflictList sch tp.2 = []) :
    ts.filterMap (fun tp => if (conflictList sch tp.2).isEmpty then none
      else some (tp.1, conflictList sch tp.2)) = [] := by
  induction ts with
  | nil => rfl
  | cons tp rest ih =>
    rw [List.filterMap_cons, if_pos (by rw [h tp (List.mem_cons_self _ _)]; rfl)]
    exact ih (fun q hq => h q (List.mem_cons_of_mem _ hq))

theorem filterMap_conflicts_single (sch : Dict Subject (List Slot))
    (ts : List (Teacher × List Subject)) (hnd : (ts.map Prod.fst).Nodup)
    {T : Teacher} {L : List Subject} {cl : List (Subject × Slot)}
    (hmem : (T, L) ∈ ts) (hcl : conflictList sch L = cl) (hne : cl ≠ [])
    (hclean : ∀ U M, (U, M) ∈ ts → U ≠ T → conflictList sch M = []) :
    ts.filterMap (fun tp => if (conflictList sch tp.2).isEmpty then none
      else some (tp.1, conflictList sch tp.2)) = [(T, cl)] := by
  induction ts with
  | nil => cases hmem
  | cons tp rest ih =>
    rw [List.map_cons, List.nodup_cons] at hnd
    rcases List.mem_cons.mp hmem with heq | hm
    · obtain rfl : tp = (T, L) := heq.symm
      rw [List.filterMap_cons, show (if (conflictList sch (T, L).2).isEmpty then none
          else some ((T, L).1, conflictList sch (T, L).2)) = some (T, cl) from by
            simp [hcl, hne]]
      rw [filterMap_conflicts_nil sch rest ?_]
      · intro q hq
        have hqT : q.1 ≠ T := by
          intro hh
          exact hnd.1 (hh ▸ List.mem_map.mpr ⟨q, hq, rfl⟩)
        exact hclean q.1 q.2 (List.mem_cons_of_mem _ hq) hqT
    · have hTmem : T ∈ rest.map Prod.fst := List.mem_map.mpr ⟨(T, L), hm, rfl⟩
      have hne0 : tp.1 ≠ T := fun hh => hnd.1 (hh ▸ hTmem)
      rw [List.filterMap_cons, show (if (conflictList sch tp.2).isEmpty then none
          else some (tp.1, conflictList sch tp.2)) = none from by
            simp [hclean tp.1 tp.2 (List.mem_cons_self _ _) hne0]]
      exact ih hnd.2 hm (fun U M hmemU hUT => hclean U M (List.mem_cons_of_mem _ hmemU) hUT)

theorem conflictList_of_single_split {sch : Dict Subject (List Slot)}
    {L : List Subject} {A B : Subject} {s0 : Slot} {l1 u w : List (Subject × Slot)}
    (hsplit : pairStream sch L = l1 ++ (A, s0) :: u ++ (B, s0) :: w)
    (hs0 : s0 ∉ (l1 ++ u ++ w).map Prod.snd)
    (hnd : ((l1 ++ u ++ w).map Prod.snd).Nodup) :
    conflictList sch L = [(B, s0), (A, s0)] := by
  rw [List.map_append, List.map_append] at hs0 hnd
  simp only [List.mem_append, not_or] at hs0
  obtain ⟨⟨hs0l1, hs0u⟩, hs0w⟩ := hs0
  rw [List.nodup_append] at hnd
  obtain ⟨hnd1, hndw, hdisw⟩ := hnd
  rw [List.nodup_append] at hnd1
  obtain ⟨hndl1, hndu, hdis1u⟩ := hnd1
  have hdisl1w : ∀ y ∈ l1.map Prod.snd, y ∉ w.map Prod.snd := by
    intro y hy
    exact hdisw (List.mem_append.mpr (Or.inl hy))
  have hdisuw : ∀ y ∈ u.map Prod.snd, y ∉ w.map Prod.snd := by
    intro y hy
    exact hdisw (List.mem_append.mpr (Or.inr hy))
  have hocc1 : ∀ y, y ∉ l1.map Prod.snd →
      (scanOcc l1 (Dict.empty : Dict Slot Subject)).get? y = none := by
    intro y hy
    rw [scanOcc_get?_of_not_mem hy]
    rfl
  have hconf_l1 : scanConf l1 (Dict.empty : Dict Slot Subject) = [] :=
    scanConf_eq_nil hndl1 (fun p _ => rfl)
  have hconf_u : scanConf u ((scanOcc l1 (Dict.empty : Dict Slot Subject)).set s0 A) = [] := by
    refine scanConf_eq_nil hndu ?_
    intro q hq
    have hq2 : q.2 ∈ u.map Prod.snd := List.mem_map.mpr ⟨q, hq, rfl⟩
    have hqs0 : q.2 ≠ s0 := fun hh => hs0u (hh ▸ hq2)
    rw [Dict.get?_set_ne hqs0]
    exact hocc1 q.2 (fun hm => hdis1u hm hq2)
  have hX : scanConf (l1 ++ (A, s0) :: u) (Dict.empty : Dict Slot Subject) = [] := by
    rw [scanConf_append, hconf_l1, List.nil_append]
    simp only [scanConf, hocc1 s0 hs0l1]
    exact hconf_u
  have hXocc : scanOcc (l1 ++ (A, s0) :: u) (Dict.empty : Dict Slot Subject) =
      scanOcc u ((scanOcc l1 (Dict.empty : Dict Slot Subject)).set s0 A) := by
    rw [scanOcc_append]
    simp only [scanOcc, hocc1 s0 hs0l1]
  have hXocc_s0 : (scanOcc (l1 ++ (A, s0) :: u) (Dict.empty : Dict Slot Subject)).get? s0
      = some A := by
    rw [hXocc]
    exact scanOcc_get?_of_some (Dict.get?_set_self _ s0 A)
  have hconf_w : scanConf w (scanOcc (l1 ++ (A, s0) :: u) (Dict.empty : Dict Slot Subject))
      = [] := by
    rw [hXocc]
    refine scanConf_eq_nil hndw ?_
    intro q hq
    have hq2 : q.2 ∈ w.map Prod.snd := List.mem_map.mpr ⟨q, hq, rfl⟩
    have hqs0 : q.2 ≠ s0 := fun hh => hs0w (hh ▸ hq2)
    rw [scanOcc_get?_of_not_mem (fun hm => hdisuw q.2 hm hq2), Dict.get?_set_ne hqs0]
    exact hocc1 q.2 (fun hm => hdisl1w q.2 hm hq2)
  rw [conflictList, hsplit, scanConf_append, hX, List.nil_append]
  simp only [scanConf, hXocc_s0]
  rw [hconf_w]

/-- C5: if exactly one teacher `T` has exactly two distinct subjects `A`, `B`
sharing the single slot `s0` (the teacher's subject-slot stream carries `s0`
exactly twice and no other repeated slot), every other teacher is
conflict-free, and at least two distinct time slots are unoccupied, then the
conflict report is exactly `{T: [(B,s0), (A,s0)]}`, one call to
`resolve_teacher_conflicts` succeeds, and a re-run of
`find_teacher_conflicts` returns the empty mapping. -/
theorem C5_single_conflict_fully_resolved (s : Scheduler)
    (hwfs : s.schedule.WF) (hwft : s.teachers.WF)
    (T : Teacher) (L : List Subject) (hmem : (T, L) ∈ s.teachers.entries)
    (A B : Subject) (s0 : Slot) (hAB : A ≠ B)
    (l1 u w : List (Subject × Slot))
    (hsplit : pairStream s.schedule L = l1 ++ (A, s0) :: u ++ (B, s0) :: w)
    (hs0 : s0 ∉ (l1 ++ u ++ w).map Prod.snd)
    (hnd : ((l1 ++ u ++ w).map Prod.snd).Nodup)
    (hclean : ∀ U M, (U, M) ∈ s.teachers.entries → U ≠ T →
      ((pairStream s.schedule M).map Prod.snd).Nodup)
    (f1 f2 : Slot) (hf12 : f1 ≠ f2) (hf1m : f1 ∈ s.time_slots) (hf2m : f2 ∈ s.time_slots)
    (hfree1 : occupiedBy s.schedule f1 = false)
    (hfree2 : occupiedBy s.schedule f2 = false) :
    s.find_teacher_conflicts = ⟨[(T, [(B, s0), (A, s0)])]⟩ ∧
    ∃ s2, s.resolve_teacher_conflicts = Except.ok s2 ∧
      s2.find_teacher_conflicts = Dict.empty := by
  have hclT : conflictList s.schedule L = [(B, s0), (A, s0)] :=
    conflictList_of_single_split hsplit hs0 hnd
  have hcleanCl : ∀ U M, (U, M) ∈ s.teachers.entries → U ≠ T →
      conflictList s.schedule M = [] := fun U M hmemU hUT =>
    (conflictList_eq_nil_iff _ _).mpr (hclean U M hmemU hUT)
  have hfind : s.find_teacher_conflicts = ⟨[(T, [(B, s0), (A, s0)])]⟩ := by
    rw [find_teacher_conflicts_char hwft]
    unfold conflictsSpec
    congr 1
    exact filterMap_conflicts_single s.schedule s.teachers.entries hwft hmem hclT
      (by simp) hcleanCl
  refine ⟨hfind, ?_⟩
  have hApair : (A, s0) ∈ pairStream s.schedule L := by
    rw [hsplit]
    exact List.mem_append.mpr (Or.inl (List.mem_append.mpr (Or.inr (List.mem_cons_self _ _))))
  have hBpair : (B, s0) ∈ pairStream s.schedule L := by
    rw [hsplit]
    exact List.mem_append.mpr (Or.inr (List.mem_cons_self _ _))
  obtain ⟨hAL, hAgetD⟩ := mem_pairStream.mp hApair
  obtain ⟨hBL, hBgetD⟩ := mem_pairStream.mp hBpair
  obtain ⟨lA, hgA⟩ : ∃ lA, s.schedule.get? A = some lA := by
    rcases h : s.schedule.get? A with _ | lA
    · rw [h] at hAgetD
      cases hAgetD
    · exact ⟨lA, rfl⟩
  obtain ⟨lB, hgB⟩ : ∃ lB, s.schedule.get? B = some lB := by
    rcases h : s.schedule.get? B with _ | lB
    · rw [h] at hBgetD
      cases hBgetD
    · exact ⟨lB, rfl⟩
  rw [hgA] at hAgetD
  rw [hgB] at hBgetD
  simp only [Option.getD_some] at hAgetD hBgetD
  obtain ⟨g1, hg1⟩ : ∃ g1, findAlternative s.schedule s.time_slots = some g1 := by
    rcases h : findAlternative s.schedule s.time_slots with _ | g1
    · rw [findAlternative_eq_none_iff] at h
      rw [h f1 hf1m] at hfree1
      cases hfree1
    · exact ⟨g1, rfl⟩
  obtain ⟨hg1m, hg1free⟩ := findAlternative_mem_and_free hg1
  have hstep1 : resolveStep s.time_slots s.schedule (B, s0) =
      Except.ok (s.schedule.set B (lB.erase s0 ++ [g1])) := by
    rw [resolveStep_some_found hg1 hgB, if_pos hBgetD]
  have hwf2 : (s.schedule.set B (lB.erase s0 ++ [g1])).WF := hwfs.set _ _
  have hfree_pres : ∀ f, occupiedBy s.schedule f = false → f ≠ g1 →
      occupiedBy (s.schedule.set B (lB.erase s0 ++ [g1])) f = false := by
    intro f hf hfg
    rcases hb : occupiedBy (s.schedule.set B (lB.erase s0 ++ [g1])) f with _ | _
    · rfl
    · exfalso
      obtain ⟨sub, l, hgsub, hfl⟩ := (occupiedBy_wf_iff hwf2).mp hb
      by_cases hsB : sub = B
      · subst hsB
        rw [Dict.get?_set_self] at hgsub
        obtain rfl : lB.erase s0 ++ [g1] = l := by injection hgsub
        rcases List.mem_append.mp hfl with h1 | h1
        · have hmemB : f ∈ lB := List.mem_of_mem_erase h1
          have := occupiedBy_of_get? hgB hmemB
          rw [this] at hf
          cases hf
        · rw [List.mem_singleton] at h1
          exact hfg h1
      · rw [Dict.get?_set_ne hsB] at hgsub
        have := occupiedBy_of_get? hgsub hfl
        rw [this] at hf
        cases hf
  have hex_free2 : ∃ f, f ∈ s.time_slots ∧
      occupiedBy (s.schedule.set B (lB.erase s0 ++ [g1])) f = false := by
    by_cases hg1f1 : g1 = f1
    · exact ⟨f2, hf2m, hfree_pres f2 hfree2 (fun hh => hf12 (hg1f1 ▸ hh).symm)⟩
    · exact ⟨f1, hf1m, hfree_pres f1 hfree1 (fun hh => hg1f1 hh.symm)⟩
  obtain ⟨g2, hg2⟩ : ∃ g2, findAlternative (s.schedule.set B (lB.erase s0 ++ [g1]))
      s.time_slots = some g2 := by
    obtain ⟨f, hfm, hffree⟩ := hex_free2
    rcases h : findAlternative (s.schedule.set B (lB.erase s0 ++ [g1])) s.time_slots
      with _ | g2
    · rw [findAlternative_eq_none_iff] at h
      rw [h f hfm] at hffree
      cases hffree
    · exact ⟨g2, rfl⟩
  obtain ⟨hg2m, hg2free⟩ := findAlternative_mem_and_free hg2
  have hgA2 : (s.schedule.set B (lB.erase s0 ++ [g1])).get? A = some lA := by
    rw [Dict.get?_set_ne hAB, hgA]
  have hstep2 : resolveStep s.time_slots (s.schedule.set B (lB.erase s0 ++ [g1])) (A, s0) =
      Except.ok ((s.schedule.set B (lB.erase s0 ++ [g1])).set A (lA.erase s0 ++ [g2])) := by
    rw [resolveStep_some_found hg2 hgA2, if_pos hAgetD]
  have hfold : resolveFold s.time_slots [(B, s0), (A, s0)] s.schedule =
      Except.ok ((s.schedule.set B (lB.erase s0 ++ [g1])).set A (lA.erase s0 ++ [g2])) := by
    rw [resolveFold]
    simp only [hstep1]
    rw [resolveFold]
    simp only [hstep2]
    rfl
  have hres : s.resolve_teacher_conflicts = Except.ok
      (⟨s.subjects, s.teachers, s.time_slots,
        (s.schedule.set B (lB.erase s0 ++ [g1])).set A (lA.erase s0 ++ [g2])⟩ : Scheduler) := by
    rw [Scheduler.resolve_teacher_conflicts, hfind]
    have hrec : (Dict.mk [(T, [(B, s0), (A, s0)])] :
        Dict Teacher (List (Subject × Slot))).entries.flatMap Prod.snd =
        [(B, s0), (A, s0)] := by simp
    rw [hrec, hfold]
  refine ⟨_, hres, ?_⟩
  -- distinctness and freshness facts
  have hg1_notin : ∀ sub, g1 ∉ (s.schedule.get? sub).getD [] :=
    not_mem_getD_of_not_occupied hg1free
  have hocc_s0 : occupiedBy s.schedule s0 = true := occupiedBy_of_get? hgA hAgetD
  have hs0_ne_g1 : s0 ≠ g1 := by
    intro hh
    rw [hh, hg1free] at hocc_s0
    cases hocc_s0
  have hocc2_s0 : occupiedBy (s.schedule.set B (lB.erase s0 ++ [g1])) s0 = true :=
    (occupiedBy_wf_iff hwf2).mpr ⟨A, lA, hgA2, hAgetD⟩
  have hs0_ne_g2 : s0 ≠ g2 := by
    intro hh
    have h2 := hg2free
    rw [← hh] at h2
    rw [hocc2_s0] at h2
    cases h2
  have hg1_occ2 : occupiedBy (s.schedule.set B (lB.erase s0 ++ [g1])) g1 = true :=
    (occupiedBy_wf_iff hwf2).mpr ⟨B, lB.erase s0 ++ [g1], Dict.get?_set_self _ _ _, by simp⟩
  have hg1_ne_g2 : g1 ≠ g2 := by
    intro hh
    have h2 := hg2free
    rw [← hh] at h2
    rw [hg1_occ2] at h2
    cases h2
  have hg2_notin : ∀ sub, g2 ∉ (s.schedule.get? sub).getD [] := by
    intro sub hmem2
    by_cases hsB : sub = B
    · rw [hsB, hgB] at hmem2
      simp only [Option.getD_some] at hmem2
      have hg2lB : g2 ∈ lB.erase s0 :=
        (List.mem_erase_of_ne (fun hh => hs0_ne_g2 hh.symm)).mpr hmem2
      have h2 : occupiedBy (s.schedule.set B (lB.erase s0 ++ [g1])) g2 = true :=
        (occupiedBy_wf_iff hwf2).mpr ⟨B, lB.erase s0 ++ [g1], Dict.get?_set_self _ _ _,
          List.mem_append.mpr (Or.inl hg2lB)⟩
      rw [h2] at hg2free
      cases hg2free
    · rcases hgs : s.schedule.get? sub with _ | l
      · rw [hgs] at hmem2
        cases hmem2
      · rw [hgs] at hmem2
        simp only [Option.getD_some] at hmem2
        have h2 : occupiedBy (s.schedule.set B (lB.erase s0 ++ [g1])) g2 = true :=
          (occupiedBy_wf_iff hwf2).mpr ⟨sub, l, by rw [Dict.get?_set_ne hsB, hgs], hmem2⟩
        rw [h2] at hg2free
        cases hg2free
  -- block characterisation of the final schedule
  have hBlockA : ((s.schedule.set B (lB.erase s0 ++ [g1])).set A
      (lA.erase s0 ++ [g2])).get? A = some (lA.erase s0 ++ [g2]) :=
    Dict.get?_set_self _ _ _
  have hBlockB : ((s.schedule.set B (lB.erase s0 ++ [g1])).set A
      (lA.erase s0 ++ [g2])).get? B = some (lB.erase s0 ++ [g1]) := by
    rw [Dict.get?_set_ne (Ne.symm hAB), Dict.get?_set_self]
  have hBlockO : ∀ sub, sub ≠ A → sub ≠ B →
      ((s.schedule.set B (lB.erase s0 ++ [g1])).set A (lA.erase s0 ++ [g2])).get? sub
        = s.schedule.get? sub := by
    intro sub h1 h2
    rw [Dict.get?_set_ne h1, Dict.get?_set_ne h2]
  have eqA : ∀ x, cnt x (lA.erase s0 ++ [g2]) + (if s0 = x then 1 else 0)
      = cnt x lA + (if g2 = x then 1 else 0) := by
    intro x
    have hp : cnt x lA = cnt x (lA.erase s0) + (if s0 = x then 1 else 0) := by
      rw [perm_cnt (perm_cons_erase_slot hAgetD) x]
      rfl
    have hsing : cnt x [g2] = if g2 = x then 1 else 0 := by
      simp [cnt]
    rw [cnt_append, hsing, hp]
    omega
  have eqB : ∀ x, cnt x (lB.erase s0 ++ [g1]) + (if s0 = x then 1 else 0)
      = cnt x lB + (if g1 = x then 1 else 0) := by
    intro x
    have hp : cnt x lB = cnt x (lB.erase s0) + (if s0 = x then 1 else 0) := by
      rw [perm_cnt (perm_cons_erase_slot hBgetD) x]
      rfl
    have hsing : cnt x [g1] = if g1 = x then 1 else 0 := by
      simp [cnt]
    rw [cnt_append, hsing, hp]
    omega
  -- the count identity between the old and the new streams
  have key : ∀ (M : List Subject) (x : Slot),
      cnt x (M.flatMap (fun sub =>
          ((((s.schedule.set B (lB.erase s0 ++ [g1])).set A
            (lA.erase s0 ++ [g2])).get? sub).getD []))) +
        cnt A M * (if s0 = x then 1 else 0) + cnt B M * (if s0 = x then 1 else 0)
      = cnt x (M.flatMap (fun sub => ((s.schedule.get? sub).getD []))) +
        cnt A M * (if g2 = x then 1 else 0) + cnt B M * (if g1 = x then 1 else 0) := by
    intro M x
    induction M with
    | nil => simp [cnt]
    | cons sub rest ih =>
      rw [List.flatMap_cons, List.flatMap_cons, cnt_append, cnt_append,
        show cnt A (sub :: rest) = cnt A rest + (if sub = A then 1 else 0) from rfl,
        show cnt B (sub :: rest) = cnt B rest + (if sub = B then 1 else 0) from rfl]
      by_cases hsA : sub = A
      · subst hsA
        rw [if_pos rfl, if_neg hAB, hBlockA, hgA]
        simp only [Option.getD_some, Nat.add_mul, Nat.one_mul, Nat.add_zero]
        have heq := eqA x
        omega
      · rw [if_neg hsA]
        by_cases hsB : sub = B
        · subst hsB
          rw [if_pos rfl, hBlockB, hgB]
          simp only [Option.getD_some, Nat.add_mul, Nat.one_mul, Nat.add_zero]
          have heq := eqB x
          omega
        · rw [if_neg hsB, hBlockO sub hsA hsB]
          simp only [Nat.add_zero]
          omega
  -- exact multiplicities for teacher T
  have hs0' := hs0
  have hnd' := hnd
  rw [List.map_append, List.map_append] at hs0' hnd'
  simp only [List.mem_append, not_or] at hs0'
  obtain ⟨⟨hs0l1, hs0u⟩, hs0w⟩ := hs0'
  have hsum_le : ∀ x, cnt x (l1.map Prod.snd) + cnt x (u.map Prod.snd)
      + cnt x (w.map Prod.snd) ≤ 1 := by
    intro x
    have := nodup_iff_cnt.mp hnd' x
    rwa [cnt_append, cnt_append] at this
  have hstreamT : L.flatMap (fun sub => ((s.schedule.get? sub).getD [])) =
      (l1.map Prod.snd ++ s0 :: u.map Prod.snd) ++ s0 :: w.map Prod.snd := by
    rw [← pairStream_map_snd, hsplit]
    simp
  have hT_s0 : cnt s0 (L.flatMap (fun sub => ((s.schedule.get? sub).getD []))) = 2 := by
    rw [hstreamT, cnt_append,
      show cnt s0 (s0 :: w.map Prod.snd) = cnt s0 (w.map Prod.snd) + 1 from by
        rw [show cnt s0 (s0 :: w.map Prod.snd)
          = cnt s0 (w.map Prod.snd) + (if s0 = s0 then 1 else 0) from rfl, if_pos rfl],
      cnt_append,
      show cnt s0 (s0 :: u.map Prod.snd) = cnt s0 (u.map Prod.snd) + 1 from by
        rw [show cnt s0 (s0 :: u.map Prod.snd)
          = cnt s0 (u.map Prod.snd) + (if s0 = s0 then 1 else 0) from rfl, if_pos rfl],
      cnt_eq_zero_of_not_mem hs0l1, cnt_eq_zero_of_not_mem hs0u,
      cnt_eq_zero_of_not_mem hs0w]
  have hT_ne : ∀ x, s0 ≠ x →
      cnt x (L.flatMap (fun sub => ((s.schedule.get? sub).getD []))) ≤ 1 := by
    intro x hx
    rw [hstreamT, cnt_append,
      show cnt x (s0 :: w.map Prod.snd)
        = cnt x (w.map Prod.snd) + (if s0 = x then 1 else 0) from rfl,
      cnt_append,
      show cnt x (s0 :: u.map Prod.snd)
        = cnt x (u.map Prod.snd) + (if s0 = x then 1 else 0) from rfl,
      if_neg hx]
    have := hsum_le x
    omega
  have hfA : cnt s0 ((s.schedule.get? A).getD []) = cnt s0 lA := by
    rw [hgA]
    rfl
  have hfB : cnt s0 ((s.schedule.get? B).getD []) = cnt s0 lB := by
    rw [hgB]
    rfl
  have hsum_prod := two_mul_cnt_le_sum L
    (fun sub => cnt s0 ((s.schedule.get? sub).getD [])) hAB
  rw [← cnt_flatMap, hT_s0] at hsum_prod
  simp only [hfA, hfB] at hsum_prod
  have h1A : 1 ≤ cnt A L := cnt_pos_of_mem hAL
  have h1B : 1 ≤ cnt B L := cnt_pos_of_mem hBL
  have h1sA : 1 ≤ cnt s0 lA := cnt_pos_of_mem hAgetD
  have h1sB : 1 ≤ cnt s0 lB := cnt_pos_of_mem hBgetD
  have hpA1 : 1 ≤ cnt A L * cnt s0 lA := by
    have := Nat.mul_le_mul h1A h1sA
    simpa using this
  have hpB1 : 1 ≤ cnt B L * cnt s0 lB := by
    have := Nat.mul_le_mul h1B h1sB
    simpa using this
  have hpA : cnt A L * cnt s0 lA = 1 := by omega
  have hpB : cnt B L * cnt s0 lB = 1 := by omega
  have hcAL : cnt A L = 1 := (mul_eq_one.mp hpA).1
  have hcsA : cnt s0 lA = 1 := (mul_eq_one.mp hpA).2
  have hcBL : cnt B L = 1 := (mul_eq_one.mp hpB).1
  have hcsB : cnt s0 lB = 1 := (mul_eq_one.mp hpB).2
  have hold_g1 : ∀ M : List Subject,
      cnt g1 (M.flatMap (fun sub => ((s.schedule.get? sub).getD []))) = 0 := by
    intro M
    refine cnt_eq_zero_of_not_mem ?_
    intro hm
    obtain ⟨sub, _, hsub⟩ := List.mem_flatMap.mp hm
    exact hg1_notin sub hsub
  have hold_g2 : ∀ M : List Subject,
      cnt g2 (M.flatMap (fun sub => ((s.schedule.get? sub).getD []))) = 0 := by
    intro M
    refine cnt_eq_zero_of_not_mem ?_
    intro hm
    obtain ⟨sub, _, hsub⟩ := List.mem_flatMap.mp hm
    exact hg2_notin sub hsub
  -- every teacher is conflict-free afterwards
  refine find_teacher_conflicts_empty ?_
  rintro ⟨U, M⟩ hmemU0
  have hmemU : (U, M) ∈ s.teachers.entries := hmemU0
  show conflictList ((s.schedule.set B (lB.erase s0 ++ [g1])).set A (lA.erase s0 ++ [g2])) M = []
  rw [conflictList_eq_nil_iff, pairStream_map_snd, nodup_iff_cnt]
  intro x
  have hkey := key M x
  by_cases hUT : U = T
  · subst hUT
    obtain rfl : M = L := dict_value_unique hwft hmemU hmem
    by_cases h1 : s0 = x
    · subst h1
      rw [if_pos rfl, if_neg (fun hh => hs0_ne_g2 hh.symm),
        if_neg (fun hh => hs0_ne_g1 hh.symm)] at hkey
      simp only [Nat.mul_one, Nat.mul_zero, Nat.add_zero] at hkey
      omega
    · rw [if_neg h1] at hkey
      simp only [Nat.mul_zero, Nat.add_zero] at hkey
      by_cases h2 : g2 = x
      · subst h2
        rw [if_pos rfl, if_neg (fun hh => hg1_ne_g2 hh)] at hkey
        simp only [Nat.mul_one, Nat.mul_zero, Nat.add_zero] at hkey
        have h0 := hold_g2 M
        omega
      · rw [if_neg h2] at hkey
        by_cases h3 : g1 = x
        · subst h3
          rw [if_pos rfl] at hkey
          simp only [Nat.mul_one, Nat.mul_zero, Nat.add_zero] at hkey
          have h0 := hold_g1 M
          omega
        · rw [if_neg h3] at hkey
          simp only [Nat.mul_zero, Nat.add_zero] at hkey
          have h0 := hT_ne x h1
          omega
  · have hnodupU := hclean U M hmemU hUT
    rw [pairStream_map_snd] at hnodupU
    have hold_le : ∀ y, cnt y (M.flatMap (fun sub => ((s.schedule.get? sub).getD []))) ≤ 1 :=
      nodup_iff_cnt.mp hnodupU
    have hcAM : cnt A M ≤ 1 := by
      have hb := mul_cnt_le_sum M (fun sub => cnt s0 ((s.schedule.get? sub).getD [])) A
      rw [← cnt_flatMap] at hb
      simp only [hfA, hcsA, Nat.mul_one] at hb
      have := hold_le s0
      omega
    have hcBM : cnt B M ≤ 1 := by
      have hb := mul_cnt_le_sum M (fun sub => cnt s0 ((s.schedule.get? sub).getD [])) B
      rw [← cnt_flatMap] at hb
      simp only [hfB, hcsB, Nat.mul_one] at hb
      have := hold_le s0
      omega
    by_cases h1 : s0 = x
    · subst h1
      rw [if_pos rfl, if_neg (fun hh => hs0_ne_g2 hh.symm),
        if_neg (fun hh => hs0_ne_g1 hh.symm)] at hkey
      simp only [Nat.mul_one, Nat.mul_zero, Nat.add_zero] at hkey
      have := hold_le s0
      omega
    · rw [if_neg h1] at hkey
      simp only [Nat.mul_zero, Nat.add_zero] at hkey
      by_cases h2 : g2 = x
      · subst h2
        rw [if_pos rfl, if_neg (fun hh => hg1_ne_g2 hh)] at hkey
        simp only [Nat.mul_one, Nat.mul_zero, Nat.add_zero] at hkey
        have h0 := hold_g2 M
        omega
      · rw [if_neg h2] at hkey
        by_cases h3 : g1 = x
        · subst h3
          rw [if_pos rfl] at hkey
          simp only [Nat.mul_one, Nat.mul_zero, Nat.add_zero] at hkey
          have h0 := hold_g1 M
          omega
        · rw [if_neg h3] at hkey
          simp only [Nat.mul_zero, Nat.add_zero] at hkey
          have h0 := hold_le x
          omega

/-- C5 witness: teacher `T` with `A`, `B` on the 9AM slot and two further
free slots — the report is exactly the one conflict, and after resolution the
report is empty. -/
theorem C5_single_conflict_fully_resolved_witness :
    (Scheduler.find_teacher_conflicts
        ⟨["A", "B"], ⟨[("T", ["A", "B"]), ("U", ["A"])]⟩,
          [("M", "9"), ("M", "10"), ("M", "11")],
          ⟨[("A", [("M", "9")]), ("B", [("M", "9")])]⟩⟩
      = ⟨[("T", [("B", ("M", "9")), ("A", ("M", "9"))])]⟩) ∧
    ∃ s2, (Scheduler.resolve_teacher_conflicts
        ⟨["A", "B"], ⟨[("T", ["A", "B"]), ("U", ["A"])]⟩,
          [("M", "9"), ("M", "10"), ("M", "11")],
          ⟨[("A", [("M", "9")]), ("B", [("M", "9")])]⟩⟩) = Except.ok s2 ∧
      s2.find_teacher_conflicts = Dict.empty :=
  C5_single_conflict_fully_resolved
    ⟨["A", "B"], ⟨[("T", ["A", "B"]), ("U", ["A"])]⟩,
      [("M", "9"), ("M", "10"), ("M", "11")],
      ⟨[("A", [("M", "9")]), ("B", [("M", "9")])]⟩⟩
    (by decide) (by decide) "T" ["A", "B"] (by decide) "A" "B" ("M", "9") (by decide)
    [] [] [] (by decide) (by decide) (by decide)
    (by
      intro U M hmemU hUT
      rcases List.mem_cons.mp hmemU with heq | hm
      · exact absurd (congrArg Prod.fst heq) hUT
      · rcases List.mem_cons.mp hm with heq2 | hm2
        · rw [show M = ["A"] from congrArg Prod.snd heq2]
          decide
        · cases hm2)
    ("M", "10") ("M", "11") (by decide) (by decide) (by decide) (by decide) (by decide)

end CSP
